import Mathlib

/-!
Verification of the reconciliation core of `gatherers-shared-py`
(`gatherers_shared_py/diff_and_update_state.py`, plus the `Record` /
`ChangedRecord` data model).

The Python function `diff_and_update_state` is embedded as a pure Lean
function.  Mutable accumulation (the `bulk_inserts_and_replaces` /
`bulk_deletes` lists and the three result lists) becomes explicit state
threading; pymongo's `bulk_write` calls become entries of a call trace,
with a boolean oracle deciding whether a given `bulk_write` raises; the
Python exceptions (`KeyError` from the identity-filter dict comprehension,
`StopIteration` from `next(filter(...))`, `BulkWriteError` from the store)
become an `EngineError` value.
-/

namespace Gatherers

/-- Field values stored in a record's `data` mapping.  The Python code
stores arbitrary JSON-ish scalars and compares them with `!=` (structural
equality); integers and strings suffice for every behaviour the engine
itself exhibits, since the engine only ever compares values for equality. -/
inductive Value : Type where
  | vInt : Int → Value
  | vStr : String → Value
deriving DecidableEq, Repr

/-- A Python `dict` of record fields, embedded as an association list in
insertion order.  Python dictionaries never hold a key twice; lemmas that
depend on that carry an explicit `Nodup` hypothesis on the key list. -/
abbrev FieldMap := List (String × Value)

/-- `d[k]` as an `Option`: the value at the first occurrence of key `k`. -/
def lookupField {α : Type} : List (String × α) → String → Option α
  | [], _ => none
  | (k, v) :: rest, key => if k = key then some v else lookupField rest key

/-- `k in d` for a field map. -/
def hasKey (d : FieldMap) (k : String) : Bool :=
  (lookupField d k).isSome

/-- The record data model.
Modelled from the spec: the repository imports `record.py`, which is not
among the provided sources; per the spec's data model a record wraps a
field map `data`, the field names `identifying_fields` that define its
identity, and a `last_updated` timestamp (seconds since epoch). -/
structure Record : Type where
  data : FieldMap
  identifying_fields : List String
  last_updated : Int
deriving DecidableEq, Repr

/-- Modelled from the spec: `record.py` (absent from the sources) defines
record equality (`__eq__`) as identity equality — two records are equal iff
for every field in the union of their `identifying_fields`, both records
contain that field in `data` and the two values are equal.  This is the
equality used by `in` and by the `filter(lambda r: r == fresh_record, ...)`
lookup inside `diff_and_update_state`. -/
def identical (a b : Record) : Bool :=
  (a.identifying_fields ++ b.identifying_fields).all fun f =>
    match lookupField a.data f, lookupField b.data f with
    | some va, some vb => decide (va = vb)
    | _, _ => false

/-- The `ChangedRecord` TypedDict of `changed_record.py`: the fresh record
together with its field-level diff.  A changed field is reported as the
pair (old value, new value), matching the source's
`{"old": value, "new": fresh_record.data[key]}` dictionaries. -/
structure ChangedRecord : Type where
  record : Record
  added : FieldMap
  changed : List (String × Value × Value)
  removed : FieldMap
deriving DecidableEq, Repr

/-- The `DiffResults` NamedTuple returned by `diff_and_update_state`. -/
structure DiffResults : Type where
  added : List Record
  changed : List ChangedRecord
  removed : List Record
deriving DecidableEq, Repr

/-- A queued storage operation (the `InsertOneOp` / `ReplaceOneOp` /
`DeleteOneOp` callables injected into `diff_and_update_state`).  The
source's identity filters use MongoDB's dot-delimited nested-query keys
(`f"data.{k}"`); since embedded rows are structured records, the path
`data.k` is rendered as the plain key `k` looked up in the row's `data`.
A row document (`record.to_dict()`) is the record itself. -/
inductive Op : Type where
  | insertOne : Record → Op
  | replaceOne : FieldMap → Record → Op
  | deleteOne : FieldMap → Op
deriving DecidableEq, Repr

/-- The dict comprehension over a record's identifying fields: each field
name is mapped to its value in `data`, failing (Python `KeyError`) on the
first field absent from `data`. -/
def identityFilterAux (data : FieldMap) : List String → Option FieldMap
  | [] => some []
  | k :: ks =>
    match lookupField data k with
    | none => none
    | some v =>
      match identityFilterAux data ks with
      | none => none
      | some rest => some ((k, v) :: rest)

/-- The identity filter built at lines 71–74 and 128–130 of
`diff_and_update_state.py`:
`{f"data.{k}": record.data[k] for k in record.identifying_fields}`.
Indexing `record.data[k]` raises `KeyError` when `k` is absent, so the
construction is partial: `none` embeds the raised `KeyError`. -/
def identityFilter (r : Record) : Option FieldMap :=
  identityFilterAux r.data r.identifying_fields

/-- The added-fields loop (lines 91–93): keys of `fresh` absent from
`former`, with the fresh value. -/
def addedFields (former fresh : FieldMap) : FieldMap :=
  fresh.filter fun kv => !hasKey former kv.1

/-- The removed-fields part of the second loop (lines 96–98): keys of
`former` absent from `fresh`, with the former value. -/
def removedFields (former fresh : FieldMap) : FieldMap :=
  former.filter fun kv => !hasKey fresh kv.1

/-- The changed-fields part of the second loop (lines 96–100): keys
present in both maps with unequal values, paired as (old, new). -/
def changedFields (former fresh : FieldMap) : List (String × Value × Value) :=
  former.filterMap fun kv =>
    match lookupField fresh kv.1 with
    | none => none
    | some vnew => if kv.2 = vnew then none else some (kv.1, kv.2, vnew)

/-- The Python exceptions `diff_and_update_state` can let escape. -/
inductive EngineError : Type where
  | keyError : EngineError
  | stopIteration : EngineError
  | bulkWriteError : EngineError
deriving DecidableEq, Repr

/-- `old_record in fresh_records` (line 45): Python list membership probes
each element with `==`, i.e. `identical`. -/
def matchedByFresh (fresh_records : List Record) (old_record : Record) : Bool :=
  fresh_records.any fun fr => identical fr old_record

/-- `fresh_record in refreshed_old_records` (line 63), the membership test
of the classification branch. -/
def matchedByRefreshed (refreshed : List Record) (fresh_record : Record) : Bool :=
  refreshed.any fun r => identical r fresh_record

/-- Accumulator of the fresh-record loop (lines 56–111): the queued
insert/replace operations and the `added_records` / `changed_records`
result lists. -/
structure FreshAcc : Type where
  bulk1 : List Op
  added : List Record
  changed : List ChangedRecord
deriving DecidableEq, Repr

/-- One iteration of the fresh-record loop (lines 60–111). -/
def freshStep (refreshed : List Record) (st : FreshAcc) (fresh_record : Record) :
    Except EngineError FreshAcc :=
  if !matchedByRefreshed refreshed fresh_record then
    Except.ok ⟨st.bulk1 ++ [Op.insertOne fresh_record],
      st.added ++ [fresh_record], st.changed⟩
  else
    match identityFilter fresh_record with
    | none => Except.error EngineError.keyError
    | some filt =>
      match refreshed.find? fun r => identical r fresh_record with
      | none => Except.error EngineError.stopIteration
      | some former_matching_record =>
        let af := addedFields former_matching_record.data fresh_record.data
        let cf := changedFields former_matching_record.data fresh_record.data
        let rf := removedFields former_matching_record.data fresh_record.data
        let bulk1' := st.bulk1 ++ [Op.replaceOne filt fresh_record]
        if af.isEmpty && cf.isEmpty && rf.isEmpty then
          Except.ok ⟨bulk1', st.added, st.changed⟩
        else
          Except.ok ⟨bulk1', st.added,
            st.changed ++ [⟨fresh_record, af, cf, rf⟩]⟩

/-- The fresh-record loop, threading the accumulator; the first raised
exception aborts the whole call. -/
def freshPassAux (refreshed : List Record) :
    List Record → FreshAcc → Except EngineError FreshAcc
  | [], st => Except.ok st
  | r :: rs, st =>
    match freshStep refreshed st r with
    | Except.error e => Except.error e
    | Except.ok st' => freshPassAux refreshed rs st'

/-- Lines 56–111 of `diff_and_update_state.py`, starting from empty
accumulators. -/
def freshPass (refreshed fresh_records : List Record) : Except EngineError FreshAcc :=
  freshPassAux refreshed fresh_records ⟨[], [], []⟩

/-- Accumulator of the unseen-record loop (lines 118–132). -/
structure DeleteAcc : Type where
  bulk2 : List Op
  removed : List Record
deriving DecidableEq, Repr

/-- One iteration of the unseen-record loop (lines 124–132):
`oldest_permitted_timestamp > record.last_updated` queues a delete keyed
by the identity filter and records the removal. -/
def deleteStep (cutoff : Int) (st : DeleteAcc) (record : Record) :
    Except EngineError DeleteAcc :=
  if cutoff > record.last_updated then
    match identityFilter record with
    | none => Except.error EngineError.keyError
    | some filt =>
      Except.ok ⟨st.bulk2 ++ [Op.deleteOne filt], st.removed ++ [record]⟩
  else
    Except.ok st

/-- The unseen-record loop. -/
def deletePassAux (cutoff : Int) :
    List Record → DeleteAcc → Except EngineError DeleteAcc
  | [], st => Except.ok st
  | r :: rs, st =>
    match deleteStep cutoff st r with
    | Except.error e => Except.error e
    | Except.ok st' => deletePassAux cutoff rs st'

/-- Lines 118–132 of `diff_and_update_state.py`, starting from empty
accumulators. -/
def deletePass (cutoff : Int) (unseen : List Record) : Except EngineError DeleteAcc :=
  deletePassAux cutoff unseen ⟨[], []⟩

instance {ε α : Type} [DecidableEq ε] [DecidableEq α] : DecidableEq (Except ε α) := fun
  | Except.error a, Except.error b =>
    if h : a = b then Decidable.isTrue (by rw [h])
    else Decidable.isFalse (by intro hc; exact h (Except.error.inj hc))
  | Except.error _, Except.ok _ => Decidable.isFalse (by intro hc; exact Except.noConfusion hc)
  | Except.ok _, Except.error _ => Decidable.isFalse (by intro hc; exact Except.noConfusion hc)
  | Except.ok a, Except.ok b =>
    if h : a = b then Decidable.isTrue (by rw [h])
    else Decidable.isFalse (by intro hc; exact h (Except.ok.inj hc))

/-- The observable outcome of one call: the batches actually submitted to
`collection_state.bulk_write`, in submission order, and either the
returned `DiffResults` or the escaped exception. -/
structure EngineResult : Type where
  calls : List (List Op)
  outcome : Except EngineError DiffResults
deriving DecidableEq, Repr

/-- The default `retention_period = datetime.timedelta(days=1)`, in
seconds. -/
def defaultRetentionPeriod : Int := 24 * 60 * 60

/-- `diff_and_update_state(fresh_records, collection_state, ...)`.
`former_records` is what `collection_state.find()` returns, reconstructed
as records; `now` is `time.time()`; `bulkWriteFails ops = true` embeds
`collection_state.bulk_write(ops, ordered=False)` raising.  The engine:
partitions former records into refreshed/unseen (lines 42–48), runs the
fresh-record loop, submits the insert/replace batch when non-empty
(lines 113–115), computes the staleness cutoff `now - retention_period`
(lines 119–120), runs the unseen-record loop, submits the delete batch
when non-empty (lines 134–136), and returns the `DiffResults`. -/
def refreshedOf (fresh_records former_records : List Record) : List Record :=
  former_records.filter fun old => matchedByFresh fresh_records old

def unseenOf (fresh_records former_records : List Record) : List Record :=
  former_records.filter fun old => !matchedByFresh fresh_records old

def diff_and_update_state (fresh_records former_records : List Record)
    (now retention_period : Int) (bulkWriteFails : List Op → Bool) : EngineResult :=
  let refreshed := refreshedOf fresh_records former_records
  let unseen := unseenOf fresh_records former_records
  match freshPass refreshed fresh_records with
  | Except.error e => ⟨[], Except.error e⟩
  | Except.ok st =>
    let calls1 : List (List Op) := if st.bulk1.isEmpty then [] else [st.bulk1]
    if !st.bulk1.isEmpty && bulkWriteFails st.bulk1 then
      ⟨calls1, Except.error EngineError.bulkWriteError⟩
    else
      let cutoff := now - retention_period
      match deletePass cutoff unseen with
      | Except.error e => ⟨calls1, Except.error e⟩
      | Except.ok dst =>
        let calls2 : List (List Op) := if dst.bulk2.isEmpty then [] else [dst.bulk2]
        if !dst.bulk2.isEmpty && bulkWriteFails dst.bulk2 then
          ⟨calls1 ++ calls2, Except.error EngineError.bulkWriteError⟩
        else
          ⟨calls1 ++ calls2, Except.ok ⟨st.added, st.changed, dst.removed⟩⟩

/-- A store whose `bulk_write` never raises. -/
def noFailure : List Op → Bool := fun _ => false

/-- Modelled from the spec: the Persistence Adapter (§6) is an external
collaborator (a MongoDB collection), not part of the sources.  A filter
matches a stored row by exact-match conjunction over its entries, each
entry addressing `row.data[k]`. -/
def matchesFilter (filt : FieldMap) (row : Record) : Bool :=
  filt.all fun kv => lookupField row.data kv.1 = some kv.2

/-- Modelled from the spec: `ReplaceOne` replaces the first stored row the
filter matches (no upsert: with no match the store is unchanged). -/
def replaceFirst : List Record → FieldMap → Record → List Record
  | [], _, _ => []
  | s :: rest, filt, doc =>
    if matchesFilter filt s then doc :: rest else s :: replaceFirst rest filt doc

/-- Modelled from the spec: `DeleteOne` removes the first stored row the
filter matches. -/
def deleteFirst : List Record → FieldMap → List Record
  | [], _ => []
  | s :: rest, filt =>
    if matchesFilter filt s then rest else s :: deleteFirst rest filt

/-- Modelled from the spec: a single storage operation applied to the
store's rows. -/
def applyOp (store : List Record) (op : Op) : List Record :=
  match op with
  | Op.insertOne doc => store ++ [doc]
  | Op.replaceOne filt doc => replaceFirst store filt doc
  | Op.deleteOne filt => deleteFirst store filt

/-- Modelled from the spec: the effect on the store of the submitted
`bulk_write` batches, ops applied in submission order. -/
def applyBatches (store : List Record) (calls : List (List Op)) : List Record :=
  calls.foldl (fun s ops => ops.foldl applyOp s) store

/-- The storage operation one iteration of the fresh-record loop queues:
an insert for an unmatched record, a replace keyed by the identity filter
for a matched one (`none` embeds the `KeyError` of a missing identifying
field). -/
def opFor (refreshed : List Record) (r : Record) : Option Op :=
  if matchedByRefreshed refreshed r then
    (identityFilter r).map fun filt => Op.replaceOne filt r
  else
    some (Op.insertOne r)

/-- The `ChangedRecord` one iteration of the fresh-record loop appends, if
any: present exactly when the record is matched and the field diff against
the first matching former record is non-empty. -/
def changedEntryFor (refreshed : List Record) (r : Record) : Option ChangedRecord :=
  if matchedByRefreshed refreshed r then
    match refreshed.find? fun f => identical f r with
    | none => none
    | some f =>
      let af := addedFields f.data r.data
      let cf := changedFields f.data r.data
      let rf := removedFields f.data r.data
      if af.isEmpty && cf.isEmpty && rf.isEmpty then none
      else some ⟨r, af, cf, rf⟩
  else none

/-- The delete operation one iteration of the unseen-record loop queues,
if any. -/
def deleteOpFor (cutoff : Int) (r : Record) : Option Op :=
  if cutoff > r.last_updated then (identityFilter r).map Op.deleteOne else none

/-- The fresh-record loop completes without raising iff every matched
record admits an identity filter. -/
def FreshOk (refreshed rs : List Record) : Prop :=
  ∀ r ∈ rs, matchedByRefreshed refreshed r = true → (identityFilter r).isSome

/-- The unseen-record loop completes without raising iff every stale
record admits an identity filter. -/
def DeleteOk (cutoff : Int) (us : List Record) : Prop :=
  ∀ r ∈ us, cutoff > r.last_updated → (identityFilter r).isSome

/-! ### Basic facts about field maps and record identity -/

theorem lookupField_eq_none_of_not_mem_keys {α : Type} {d : List (String × α)} {k : String}
    (h : k ∉ d.map Prod.fst) : lookupField d k = none := by
  induction d with
  | nil => rfl
  | cons kv rest ih =>
    simp only [List.map_cons, List.mem_cons, not_or] at h
    have hne : ¬kv.1 = k := fun hc => h.1 hc.symm
    simp only [lookupField, if_neg hne, ih h.2]

theorem lookupField_isSome_of_mem {α : Type} {d : List (String × α)} {kv : String × α}
    (h : kv ∈ d) : (lookupField d kv.1).isSome := by
  induction d with
  | nil => cases h
  | cons hd rest ih =>
    rcases List.mem_cons.mp h with h1 | h1
    · subst h1; simp [lookupField]
    · by_cases hk : hd.1 = kv.1
      · simp [lookupField, hk]
      · simp only [lookupField, if_neg hk]; exact ih h1

theorem mem_of_lookupField_eq_some {α : Type} {d : List (String × α)} {k : String} {v : α}
    (h : lookupField d k = some v) : (k, v) ∈ d := by
  induction d with
  | nil => cases h
  | cons hd rest ih =>
    by_cases hk : hd.1 = k
    · simp only [lookupField, if_pos hk] at h
      obtain rfl : hd.2 = v := Option.some.inj h
      rcases hd with ⟨k0, v0⟩
      obtain rfl : k0 = k := hk
      exact List.mem_cons_self _ _
    · simp only [lookupField, if_neg hk] at h
      exact List.mem_cons_of_mem _ (ih h)

theorem identical_symm (a b : Record) : identical a b = identical b a := by
  have hf : (fun f => match lookupField a.data f, lookupField b.data f with
        | some va, some vb => decide (va = vb)
        | _, _ => false)
      = (fun f => match lookupField b.data f, lookupField a.data f with
        | some vb, some va => decide (vb = va)
        | _, _ => false) := by
    funext f
    cases lookupField a.data f <;> cases lookupField b.data f <;> simp [eq_comm]
  unfold identical
  rw [hf, List.all_append, List.all_append, Bool.and_comm]

theorem identical_self {r : Record}
    (h : ∀ k ∈ r.identifying_fields, (lookupField r.data k).isSome) :
    identical r r = true := by
  unfold identical
  rw [List.all_eq_true]
  intro f hf
  have hf' : f ∈ r.identifying_fields := by
    rcases List.mem_append.mp hf with h1 | h1 <;> exact h1
  rcases Option.isSome_iff_exists.mp (h f hf') with ⟨v, hv⟩
  simp [hv]

/-! ### Field differ characterization -/

theorem lookupField_addedFields (former fresh : FieldMap) (k : String) :
    lookupField (addedFields former fresh) k
      = if hasKey former k then none else lookupField fresh k := by
  induction fresh with
  | nil => cases h : hasKey former k <;> simp [addedFields, lookupField, h]
  | cons kv rest ih =>
    unfold addedFields at ih ⊢
    rw [List.filter_cons]
    by_cases hmem : hasKey former kv.1
    · rw [if_neg (by simp [hmem])]
      by_cases hk : kv.1 = k
      · subst hk; rw [ih]; simp [hmem]
      · rw [ih]; simp only [lookupField, if_neg hk]
    · rw [if_pos (by simp [hmem])]
      by_cases hk : kv.1 = k
      · subst hk; simp [lookupField, hmem]
      · simp only [lookupField, if_neg hk]; exact ih

theorem lookupField_removedFields (former fresh : FieldMap) (k : String) :
    lookupField (removedFields former fresh) k
      = if hasKey fresh k then none else lookupField former k := by
  induction former with
  | nil => cases h : hasKey fresh k <;> simp [removedFields, lookupField, h]
  | cons kv rest ih =>
    unfold removedFields at ih ⊢
    rw [List.filter_cons]
    by_cases hmem : hasKey fresh kv.1
    · rw [if_neg (by simp [hmem])]
      by_cases hk : kv.1 = k
      · subst hk; rw [ih]; simp [hmem]
      · rw [ih]; simp only [lookupField, if_neg hk]
    · rw [if_pos (by simp [hmem])]
      by_cases hk : kv.1 = k
      · subst hk; simp [lookupField, hmem]
      · simp only [lookupField, if_neg hk]; exact ih

theorem changedFields_cons (kv : String × Value) (rest fresh : FieldMap) :
    changedFields (kv :: rest) fresh
      = match lookupField fresh kv.1 with
        | none => changedFields rest fresh
        | some vnew =>
          if kv.2 = vnew then changedFields rest fresh
          else (kv.1, kv.2, vnew) :: changedFields rest fresh := by
  cases hfr : lookupField fresh kv.1 with
  | none => simp [changedFields, List.filterMap_cons, hfr]
  | some vnew =>
    by_cases heq : kv.2 = vnew <;>
      simp [changedFields, List.filterMap_cons, hfr, heq]

theorem lookupField_changedFields_eq_none (former fresh : FieldMap) (k : String)
    (h : lookupField former k = none) :
    lookupField (changedFields former fresh) k = none := by
  induction former with
  | nil => rfl
  | cons kv rest ih =>
    have hk : ¬kv.1 = k := by
      intro hc
      simp only [lookupField, if_pos hc] at h
      cases h
    have hrest : lookupField rest k = none := by
      simpa only [lookupField, if_neg hk] using h
    rw [changedFields_cons]
    cases hfr : lookupField fresh kv.1 with
    | none => exact ih hrest
    | some vnew =>
      by_cases heq : kv.2 = vnew
      · simp only [if_pos heq]; exact ih hrest
      · simp only [if_neg heq, lookupField, if_neg hk]; exact ih hrest

theorem lookupField_changedFields (former fresh : FieldMap)
    (hnd : (former.map Prod.fst).Nodup) (k : String) (vo vn : Value) :
    lookupField (changedFields former fresh) k = some (vo, vn) ↔
      lookupField former k = some vo ∧ lookupField fresh k = some vn ∧ vo ≠ vn := by
  induction former with
  | nil => simp [changedFields, lookupField]
  | cons kv rest ih =>
    rw [List.map_cons, List.nodup_cons] at hnd
    have hrestlk : lookupField rest kv.1 = none :=
      lookupField_eq_none_of_not_mem_keys hnd.1
    rw [changedFields_cons]
    by_cases hk : kv.1 = k
    · subst hk
      have hhead : lookupField (kv :: rest) kv.1 = some kv.2 := by
        simp [lookupField]
      cases hfr : lookupField fresh kv.1 with
      | none =>
        dsimp only
        rw [lookupField_changedFields_eq_none rest fresh kv.1 hrestlk, hhead]
        simp
      | some vnew =>
        dsimp only
        by_cases heq : kv.2 = vnew
        · rw [if_pos heq, lookupField_changedFields_eq_none rest fresh kv.1 hrestlk, hhead]
          constructor
          · intro h1; cases h1
          · rintro ⟨h1, h2, h3⟩
            have hvv : vo = vn := by
              rw [← Option.some.inj h1, heq, Option.some.inj h2]
            exact absurd hvv h3
        · rw [if_neg heq, hhead]
          have hhead2 : lookupField ((kv.1, kv.2, vnew) :: changedFields rest fresh) kv.1
              = some (kv.2, vnew) := by
            simp [lookupField]
          rw [hhead2]
          constructor
          · intro h1
            injection Option.some.inj h1 with ha hb
            subst ha; subst hb
            exact ⟨rfl, rfl, heq⟩
          · rintro ⟨h1, h2, _⟩
            rw [Option.some.inj h1, Option.some.inj h2]
    · cases hfr : lookupField fresh kv.1 with
      | none =>
        dsimp only
        rw [ih hnd.2]
        simp [lookupField, if_neg hk]
      | some vnew =>
        dsimp only
        by_cases heq : kv.2 = vnew
        · rw [if_pos heq, ih hnd.2]
          simp [lookupField, if_neg hk]
        · rw [if_neg heq]
          simp only [lookupField, if_neg hk]
          exact ih hnd.2

/-! ### Characterization of the fresh-record loop -/

theorem toList_append_filterMap {α β : Type} (f : α → Option β) (x : α) (l : List α) :
    (f x).toList ++ l.filterMap f = (x :: l).filterMap f := by
  cases h : f x <;> simp [List.filterMap_cons, h]

theorem freshStep_ok (refreshed : List Record) (st : FreshAcc) (r : Record)
    (h : matchedByRefreshed refreshed r = true → (identityFilter r).isSome) :
    freshStep refreshed st r = Except.ok
      ⟨st.bulk1 ++ (opFor refreshed r).toList,
       st.added ++ (if matchedByRefreshed refreshed r then [] else [r]),
       st.changed ++ (changedEntryFor refreshed r).toList⟩ := by
  by_cases hm : matchedByRefreshed refreshed r = true
  · have hfs : (refreshed.find? fun rr => identical rr r).isSome := by
      rw [List.find?_isSome]
      simpa [matchedByRefreshed, List.any_eq_true] using hm
    rcases Option.isSome_iff_exists.mp hfs with ⟨f, hf⟩
    rcases Option.isSome_iff_exists.mp (h hm) with ⟨filt, hfilt⟩
    unfold freshStep opFor changedEntryFor
    rw [hm, hfilt, hf]
    simp only [Bool.not_true]
    split
    · simp_all
    · split <;> simp_all
  · have hm' : matchedByRefreshed refreshed r = false := by
      cases hmb : matchedByRefreshed refreshed r
      · rfl
      · exact absurd hmb hm
    unfold freshStep opFor changedEntryFor
    rw [hm']
    simp

theorem freshStep_err_of_missing (refreshed : List Record) (st : FreshAcc) (r : Record)
    (hm : matchedByRefreshed refreshed r = true) (hf : identityFilter r = none) :
    freshStep refreshed st r = Except.error EngineError.keyError := by
  unfold freshStep
  rw [hm, hf]
  simp

theorem freshPassAux_ok (refreshed rs : List Record) (st : FreshAcc)
    (h : FreshOk refreshed rs) :
    freshPassAux refreshed rs st = Except.ok
      ⟨st.bulk1 ++ rs.filterMap (opFor refreshed),
       st.added ++ rs.filter (fun r => !matchedByRefreshed refreshed r),
       st.changed ++ rs.filterMap (changedEntryFor refreshed)⟩ := by
  induction rs generalizing st with
  | nil => simp [freshPassAux]
  | cons r rs ih =>
    rw [freshPassAux, freshStep_ok refreshed st r (h r (List.mem_cons_self r rs))]
    dsimp only
    rw [ih _ fun x hx hm => h x (List.mem_cons_of_mem r hx) hm]
    rw [← toList_append_filterMap (opFor refreshed) r rs,
      ← toList_append_filterMap (changedEntryFor refreshed) r rs]
    have hfil : (if matchedByRefreshed refreshed r then [] else [r])
        ++ rs.filter (fun x => !matchedByRefreshed refreshed x)
        = (r :: rs).filter fun x => !matchedByRefreshed refreshed x := by
      rw [List.filter_cons]
      cases hmb : matchedByRefreshed refreshed r <;> simp [hmb]
    rw [← hfil]
    simp [List.append_assoc]

theorem freshPass_ok (refreshed rs : List Record) (h : FreshOk refreshed rs) :
    freshPass refreshed rs = Except.ok
      ⟨rs.filterMap (opFor refreshed),
       rs.filter (fun r => !matchedByRefreshed refreshed r),
       rs.filterMap (changedEntryFor refreshed)⟩ := by
  unfold freshPass
  rw [freshPassAux_ok refreshed rs _ h]
  simp

theorem freshPassAux_ok_freshOk (refreshed rs : List Record) (st st' : FreshAcc)
    (h : freshPassAux refreshed rs st = Except.ok st') : FreshOk refreshed rs := by
  induction rs generalizing st with
  | nil => intro x hx; cases hx
  | cons r rs ih =>
    rw [freshPassAux] at h
    cases hstep : freshStep refreshed st r with
    | error e => rw [hstep] at h; cases h
    | ok st1 =>
      rw [hstep] at h
      intro x hx hm
      rcases List.mem_cons.mp hx with rfl | hx'
      · by_contra hns
        have hnone : identityFilter x = none := Option.not_isSome_iff_eq_none.mp hns
        rw [freshStep_err_of_missing refreshed st x hm hnone] at hstep
        cases hstep
      · exact ih st1 h x hx' hm

theorem freshStep_ne_stopIteration (refreshed : List Record) (st : FreshAcc) (r : Record) :
    freshStep refreshed st r ≠ Except.error EngineError.stopIteration := by
  by_cases hm : matchedByRefreshed refreshed r = true
  · have hfs : (refreshed.find? fun rr => identical rr r).isSome := by
      rw [List.find?_isSome]
      simpa [matchedByRefreshed, List.any_eq_true] using hm
    rcases Option.isSome_iff_exists.mp hfs with ⟨f, hf⟩
    unfold freshStep
    rw [hm]
    cases hfilt : identityFilter r
    · simp
    · rw [hf]
      simp only [Bool.not_true]
      split
      · simp_all
      · split <;> simp_all
  · have hm' : matchedByRefreshed refreshed r = false := by
      cases hmb : matchedByRefreshed refreshed r
      · rfl
      · exact absurd hmb hm
    unfold freshStep
    rw [hm']
    simp

theorem freshPassAux_ne_stopIteration (refreshed rs : List Record) (st : FreshAcc) :
    freshPassAux refreshed rs st ≠ Except.error EngineError.stopIteration := by
  induction rs generalizing st with
  | nil => simp [freshPassAux]
  | cons r rs ih =>
    rw [freshPassAux]
    cases hstep : freshStep refreshed st r with
    | error e =>
      intro hc
      obtain rfl : e = EngineError.stopIteration := by cases hc; rfl
      exact freshStep_ne_stopIteration refreshed st r hstep
    | ok st1 => exact ih st1

/-! ### Characterization of the unseen-record loop -/

theorem deleteStep_ok (cutoff : Int) (st : DeleteAcc) (r : Record)
    (h : cutoff > r.last_updated → (identityFilter r).isSome) :
    deleteStep cutoff st r = Except.ok
      ⟨st.bulk2 ++ (deleteOpFor cutoff r).toList,
       st.removed ++ (if cutoff > r.last_updated then [r] else [])⟩ := by
  by_cases hst : cutoff > r.last_updated
  · rcases Option.isSome_iff_exists.mp (h hst) with ⟨filt, hfilt⟩
    unfold deleteStep deleteOpFor
    rw [if_pos hst, if_pos hst, if_pos hst, hfilt]
    simp
  · unfold deleteStep deleteOpFor
    rw [if_neg hst, if_neg hst, if_neg hst]
    simp

theorem deleteStep_err_of_missing (cutoff : Int) (st : DeleteAcc) (r : Record)
    (hst : cutoff > r.last_updated) (hf : identityFilter r = none) :
    deleteStep cutoff st r = Except.error EngineError.keyError := by
  unfold deleteStep
  rw [if_pos hst, hf]

theorem deletePassAux_ok (cutoff : Int) (us : List Record) (st : DeleteAcc)
    (h : DeleteOk cutoff us) :
    deletePassAux cutoff us st = Except.ok
      ⟨st.bulk2 ++ us.filterMap (deleteOpFor cutoff),
       st.removed ++ us.filter (fun r => decide (cutoff > r.last_updated))⟩ := by
  induction us generalizing st with
  | nil => simp [deletePassAux]
  | cons r rs ih =>
    rw [deletePassAux, deleteStep_ok cutoff st r (h r (List.mem_cons_self r rs))]
    dsimp only
    rw [ih _ fun x hx hst => h x (List.mem_cons_of_mem r hx) hst]
    rw [← toList_append_filterMap (deleteOpFor cutoff) r rs]
    have hfil : (if cutoff > r.last_updated then [r] else [])
        ++ rs.filter (fun x => decide (cutoff > x.last_updated))
        = (r :: rs).filter fun x => decide (cutoff > x.last_updated) := by
      rw [List.filter_cons]
      by_cases hst : cutoff > r.last_updated <;> simp [hst]
    rw [← hfil]
    simp [List.append_assoc]

theorem deletePass_ok (cutoff : Int) (us : List Record) (h : DeleteOk cutoff us) :
    deletePass cutoff us = Except.ok
      ⟨us.filterMap (deleteOpFor cutoff),
       us.filter (fun r => decide (cutoff > r.last_updated))⟩ := by
  unfold deletePass
  rw [deletePassAux_ok cutoff us _ h]
  simp

theorem deletePassAux_ok_deleteOk (cutoff : Int) (us : List Record) (st st' : DeleteAcc)
    (h : deletePassAux cutoff us st = Except.ok st') : DeleteOk cutoff us := by
  induction us generalizing st with
  | nil => intro x hx; cases hx
  | cons r rs ih =>
    rw [deletePassAux] at h
    cases hstep : deleteStep cutoff st r with
    | error e => rw [hstep] at h; cases h
    | ok st1 =>
      rw [hstep] at h
      intro x hx hst
      rcases List.mem_cons.mp hx with rfl | hx'
      · by_contra hns
        have hnone : identityFilter x = none := Option.not_isSome_iff_eq_none.mp hns
        rw [deleteStep_err_of_missing cutoff st x hst hnone] at hstep
        cases hstep
      · exact ih st1 h x hx' hst

theorem deleteStep_error_eq (cutoff : Int) (st : DeleteAcc) (r : Record) (e : EngineError)
    (h : deleteStep cutoff st r = Except.error e) : e = EngineError.keyError := by
  unfold deleteStep at h
  by_cases hst : cutoff > r.last_updated
  · rw [if_pos hst] at h
    cases hfilt : identityFilter r with
    | none => rw [hfilt] at h; cases h; rfl
    | some filt => rw [hfilt] at h; cases h
  · rw [if_neg hst] at h; cases h

theorem deletePassAux_error_eq (cutoff : Int) (us : List Record) (st : DeleteAcc)
    (e : EngineError) (h : deletePassAux cutoff us st = Except.error e) :
    e = EngineError.keyError := by
  induction us generalizing st with
  | nil => cases h
  | cons r rs ih =>
    rw [deletePassAux] at h
    cases hstep : deleteStep cutoff st r with
    | error e' =>
      rw [hstep] at h
      dsimp only at h
      have he : e' = e := Except.error.inj h
      subst he
      exact deleteStep_error_eq cutoff st r e' hstep
    | ok st1 =>
      rw [hstep] at h
      exact ih st1 h

/-! ### Relating the refreshed/unseen partition to direct matching -/

/-- "some former record is identity-equal to `r`". -/
def hasFormerMatch (former : List Record) (r : Record) : Bool :=
  former.any fun f => identical f r

theorem matchedByRefreshed_refreshedOf (fresh former : List Record) (r : Record)
    (hr : r ∈ fresh) :
    matchedByRefreshed (refreshedOf fresh former) r = hasFormerMatch former r := by
  unfold matchedByRefreshed refreshedOf hasFormerMatch
  cases hb : former.any fun f => identical f r with
  | true =>
    rw [List.any_eq_true] at hb
    rcases hb with ⟨f, hf, hif⟩
    have hmf : matchedByFresh fresh f = true := by
      unfold matchedByFresh
      rw [List.any_eq_true]
      exact ⟨r, hr, by rw [identical_symm]; exact hif⟩
    rw [List.any_eq_true]
    exact ⟨f, List.mem_filter.mpr ⟨hf, hmf⟩, hif⟩
  | false =>
    rw [List.any_eq_false] at hb
    rw [List.any_eq_false]
    intro x hx
    exact hb x (List.mem_filter.mp hx).1

theorem mem_unseenOf (fresh former : List Record) (r : Record) :
    r ∈ unseenOf fresh former ↔ r ∈ former ∧ matchedByFresh fresh r = false := by
  unfold unseenOf
  rw [List.mem_filter]
  constructor
  · rintro ⟨h1, h2⟩
    refine ⟨h1, ?_⟩
    cases hmb : matchedByFresh fresh r
    · rfl
    · rw [hmb] at h2; cases h2
  · rintro ⟨h1, h2⟩
    exact ⟨h1, by rw [h2]; rfl⟩

theorem mem_refreshedOf (fresh former : List Record) (r : Record) :
    r ∈ refreshedOf fresh former ↔ r ∈ former ∧ matchedByFresh fresh r = true := by
  unfold refreshedOf
  rw [List.mem_filter]

/-! ### Shape of a successful engine call -/

theorem engine_ok_elim (fresh former : List Record) (now ret : Int)
    (orc : List Op → Bool) (calls : List (List Op)) (res : DiffResults)
    (h : diff_and_update_state fresh former now ret orc = ⟨calls, Except.ok res⟩) :
    ∃ st dst, freshPass (refreshedOf fresh former) fresh = Except.ok st
      ∧ deletePass (now - ret) (unseenOf fresh former) = Except.ok dst
      ∧ res = ⟨st.added, st.changed, dst.removed⟩
      ∧ calls = (if st.bulk1.isEmpty then [] else [st.bulk1])
          ++ (if dst.bulk2.isEmpty then [] else [dst.bulk2]) := by
  unfold diff_and_update_state at h
  dsimp only at h
  cases hst : freshPass (refreshedOf fresh former) fresh with
  | error e =>
    rw [hst] at h
    dsimp only at h
    have h2 := congrArg EngineResult.outcome h
    simp at h2
  | ok st =>
    rw [hst] at h
    dsimp only at h
    by_cases hb1 : (!st.bulk1.isEmpty && orc st.bulk1) = true
    · rw [if_pos hb1] at h
      have h2 := congrArg EngineResult.outcome h
      simp at h2
    · rw [if_neg hb1] at h
      cases hdst : deletePass (now - ret) (unseenOf fresh former) with
      | error e =>
        rw [hdst] at h
        dsimp only at h
        have h2 := congrArg EngineResult.outcome h
        simp at h2
      | ok dst =>
        rw [hdst] at h
        dsimp only at h
        by_cases hb2 : (!dst.bulk2.isEmpty && orc dst.bulk2) = true
        · rw [if_pos hb2] at h
          have h2 := congrArg EngineResult.outcome h
          simp at h2
        · rw [if_neg hb2] at h
          refine ⟨st, dst, rfl, rfl, ?_, ?_⟩
          · have h2 := congrArg EngineResult.outcome h
            dsimp at h2
            exact (Except.ok.inj h2).symm
          · have h1 := congrArg EngineResult.calls h
            dsimp at h1
            exact h1.symm

theorem engine_outcome_ne_stopIteration (fresh former : List Record) (now ret : Int)
    (orc : List Op → Bool) :
    (diff_and_update_state fresh former now ret orc).outcome
      ≠ Except.error EngineError.stopIteration := by
  unfold diff_and_update_state
  dsimp only
  cases hst : freshPass (refreshedOf fresh former) fresh with
  | error e =>
    dsimp only
    intro hc
    have he : e = EngineError.stopIteration := Except.error.inj hc
    subst he
    unfold freshPass at hst
    exact freshPassAux_ne_stopIteration _ _ _ hst
  | ok st =>
    dsimp only
    split
    · simp
    · cases hdst : deletePass (now - ret) (unseenOf fresh former) with
      | error e =>
        dsimp only
        intro hc
        have he : e = EngineError.stopIteration := Except.error.inj hc
        subst he
        unfold deletePass at hdst
        have := deletePassAux_error_eq _ _ _ _ hdst
        cases this
      | ok dst =>
        dsimp only
        split
        · simp
        · simp

theorem freshPass_ok_freshOk (refreshed rs : List Record) (st : FreshAcc)
    (h : freshPass refreshed rs = Except.ok st) : FreshOk refreshed rs :=
  freshPassAux_ok_freshOk refreshed rs ⟨[], [], []⟩ st h

theorem deletePass_ok_deleteOk (cutoff : Int) (us : List Record) (st : DeleteAcc)
    (h : deletePass cutoff us = Except.ok st) : DeleteOk cutoff us :=
  deletePassAux_ok_deleteOk cutoff us ⟨[], []⟩ st h

theorem freshStep_error_eq (refreshed : List Record) (st : FreshAcc) (r : Record)
    (e : EngineError) (h : freshStep refreshed st r = Except.error e) :
    e = EngineError.keyError := by
  by_cases hm : matchedByRefreshed refreshed r = true
  · have hfs : (refreshed.find? fun rr => identical rr r).isSome := by
      rw [List.find?_isSome]
      simpa [matchedByRefreshed, List.any_eq_true] using hm
    rcases Option.isSome_iff_exists.mp hfs with ⟨f, hf⟩
    unfold freshStep at h
    rw [hm] at h
    cases hfilt : identityFilter r with
    | none =>
      rw [hfilt] at h
      simp at h
      exact h.symm
    | some filt =>
      rw [hfilt, hf] at h
      simp only [Bool.not_true] at h
      rw [if_neg (by simp)] at h
      split at h <;> cases h
  · have hm' : matchedByRefreshed refreshed r = false := by
      cases hmb : matchedByRefreshed refreshed r
      · rfl
      · exact absurd hmb hm
    unfold freshStep at h
    rw [hm'] at h
    simp at h

theorem freshPassAux_error_eq (refreshed rs : List Record) (st : FreshAcc)
    (e : EngineError) (h : freshPassAux refreshed rs st = Except.error e) :
    e = EngineError.keyError := by
  induction rs generalizing st with
  | nil => cases h
  | cons r rs ih =>
    rw [freshPassAux] at h
    cases hstep : freshStep refreshed st r with
    | error e' =>
      rw [hstep] at h
      dsimp only at h
      have he : e' = e := Except.error.inj h
      subst he
      exact freshStep_error_eq refreshed st r e' hstep
    | ok st1 =>
      rw [hstep] at h
      exact ih st1 h

theorem identityFilterAux_eq_none_of_missing (data : FieldMap) (ks : List String)
    (k : String) (hk : k ∈ ks) (hnone : lookupField data k = none) :
    identityFilterAux data ks = none := by
  induction ks with
  | nil => cases hk
  | cons a as ih =>
    rcases List.mem_cons.mp hk with rfl | hk'
    · rw [identityFilterAux, hnone]
    · rw [identityFilterAux]
      cases hfa : lookupField data a with
      | none => rfl
      | some v => rw [ih hk']

theorem identityFilter_eq_none_of_missing (r : Record) (k : String)
    (hk : k ∈ r.identifying_fields) (hnone : lookupField r.data k = none) :
    identityFilter r = none :=
  identityFilterAux_eq_none_of_missing r.data r.identifying_fields k hk hnone

theorem identityFilterAux_isSome_of_present (data : FieldMap) (ks : List String)
    (h : ∀ k ∈ ks, (lookupField data k).isSome) :
    (identityFilterAux data ks).isSome := by
  induction ks with
  | nil => rfl
  | cons a as ih =>
    rcases Option.isSome_iff_exists.mp (h a (List.mem_cons_self a as)) with ⟨v, hv⟩
    rcases Option.isSome_iff_exists.mp
        (ih fun x hx => h x (List.mem_cons_of_mem a hx)) with ⟨rest, hrest⟩
    rw [identityFilterAux, hv, hrest]
    rfl

theorem identityFilter_isSome_of_present (r : Record)
    (h : ∀ k ∈ r.identifying_fields, (lookupField r.data k).isSome) :
    (identityFilter r).isSome :=
  identityFilterAux_isSome_of_present r.data r.identifying_fields h

theorem changedEntryFor_elim (refreshed : List Record) (r : Record) (c : ChangedRecord)
    (h : changedEntryFor refreshed r = some c) :
    ∃ f, refreshed.find? (fun x => identical x r) = some f
      ∧ c = ⟨r, addedFields f.data r.data, changedFields f.data r.data,
              removedFields f.data r.data⟩
      ∧ ((addedFields f.data r.data).isEmpty && (changedFields f.data r.data).isEmpty
          && (removedFields f.data r.data).isEmpty) = false := by
  unfold changedEntryFor at h
  by_cases hm : matchedByRefreshed refreshed r = true
  · rw [if_pos hm] at h
    cases hf : refreshed.find? fun x => identical x r with
    | none => rw [hf] at h; cases h
    | some f =>
      rw [hf] at h
      dsimp only at h
      by_cases he : ((addedFields f.data r.data).isEmpty
          && (changedFields f.data r.data).isEmpty
          && (removedFields f.data r.data).isEmpty) = true
      · rw [if_pos he] at h; cases h
      · rw [if_neg he] at h
        refine ⟨f, rfl, (Option.some.inj h).symm, ?_⟩
        cases hb : ((addedFields f.data r.data).isEmpty
            && (changedFields f.data r.data).isEmpty
            && (removedFields f.data r.data).isEmpty)
        · rfl
        · exact absurd hb he
  · rw [if_neg hm] at h; cases h

theorem countP_filterMap {α β : Type} (g : α → Option β) (p : β → Bool) (q : α → Bool)
    (l : List α) (hq : ∀ x ∈ l, q x = (Option.any p (g x))) :
    (l.filterMap g).countP p = l.countP q := by
  induction l with
  | nil => simp
  | cons a as ih =>
    rw [List.filterMap_cons, List.countP_cons]
    have hqa := hq a (List.mem_cons_self a as)
    have ihr := ih fun x hx => hq x (List.mem_cons_of_mem a hx)
    cases hga : g a with
    | none =>
      rw [hga] at hqa
      simp only [Option.any] at hqa
      rw [ihr, hqa]
      simp
    | some b =>
      rw [hga] at hqa
      simp only [Option.any] at hqa
      rw [List.countP_cons, ihr, hqa]

theorem countP_eq_of_unique {α : Type} (l : List α) (q : α → Bool) (r : α)
    (hnd : l.Nodup) (hr : r ∈ l) (hq : ∀ x, q x = true → x = r) :
    l.countP q = if q r then 1 else 0 := by
  induction l with
  | nil => cases hr
  | cons a as ih =>
    rw [List.nodup_cons] at hnd
    rw [List.countP_cons]
    rcases List.mem_cons.mp hr with rfl | hr'
    · have hz : as.countP q = 0 := by
        rw [List.countP_eq_zero]
        intro x hx hqx
        exact absurd (hq x hqx ▸ hx) hnd.1
      rw [hz]
      cases hqr : q r <;> simp [hqr]
    · have hqa : q a = false := by
        cases hqa : q a
        · rfl
        · exact absurd (hq a hqa ▸ hr') hnd.1
      rw [ih hnd.2 hr', hqa]
      simp

/-! ### Concrete records used in witnesses -/

/-- Former record `{id:1, name:"a"}` at time 1000000. -/
def exIdA : Record := ⟨[("id", Value.vInt 1), ("name", Value.vStr "a")], ["id"], 1000000⟩

/-- Fresh record `{id:1, name:"b"}` one hour later. -/
def exIdB : Record := ⟨[("id", Value.vInt 1), ("name", Value.vStr "b")], ["id"], 1003600⟩

/-- Fresh record `{id:2, name:"c"}`, previously unknown. -/
def exNew : Record := ⟨[("id", Value.vInt 2), ("name", Value.vStr "c")], ["id"], 1003600⟩

/-- Old record `{id:3}` last seen at epoch 0, stale for any recent `now`. -/
def exStale : Record := ⟨[("id", Value.vInt 3)], ["id"], 0⟩

/-- Former record `{id:1}` at time 1000. -/
def exSame0 : Record := ⟨[("id", Value.vInt 1)], ["id"], 1000⟩

/-- Fresh record with the same data as `exSame0` but a newer timestamp. -/
def exSame : Record := ⟨[("id", Value.vInt 1)], ["id"], 2000⟩

/-- The `{a:1, b:2}` field map of the spec's field-diff example. -/
def exFormerMap : FieldMap := [("a", Value.vInt 1), ("b", Value.vInt 2)]

/-- The `{a:1, c:3}` field map of the spec's field-diff example. -/
def exFreshMap : FieldMap := [("a", Value.vInt 1), ("c", Value.vInt 3)]

/-! ### Claim theorems -/

/-- C2: Field differ correctness.  For any former/fresh field maps (the
former's keys duplicate-free, as Python dict keys are): `addedFields`
maps exactly the keys present in `fresh` but not in `former` to the fresh
value, `removedFields` maps exactly the keys present in `former` but not
in `fresh` to the former value, and `changedFields` maps exactly the keys
present in both with unequal values to the pair carrying the old and the
new value. -/
theorem fieldDiffer_correct (former fresh : FieldMap)
    (hnd : (former.map Prod.fst).Nodup) (k : String) :
    (lookupField (addedFields former fresh) k
        = if hasKey former k then none else lookupField fresh k)
    ∧ (lookupField (removedFields former fresh) k
        = if hasKey fresh k then none else lookupField former k)
    ∧ (∀ vo vn : Value,
        lookupField (changedFields former fresh) k = some (vo, vn) ↔
          lookupField former k = some vo ∧ lookupField fresh k = some vn ∧ vo ≠ vn) :=
  ⟨lookupField_addedFields former fresh k, lookupField_removedFields former fresh k,
    fun vo vn => lookupField_changedFields former fresh hnd k vo vn⟩

/-- Witness for C2 at the spec's own example: former `{a:1,b:2}` vs fresh
`{a:1,c:3}` yields added `{c:3}`, removed `{b:2}`, changed `{}`. -/
theorem fieldDiffer_correct_witness :
    (exFormerMap.map Prod.fst).Nodup
    ∧ lookupField (addedFields exFormerMap exFreshMap) "c"
        = (if hasKey exFormerMap "c" then none else lookupField exFreshMap "c")
    ∧ addedFields exFormerMap exFreshMap = [("c", Value.vInt 3)]
    ∧ removedFields exFormerMap exFreshMap = [("b", Value.vInt 2)]
    ∧ changedFields exFormerMap exFreshMap = [] :=
  ⟨by decide, (fieldDiffer_correct exFormerMap exFreshMap (by decide) "c").1,
    by decide, by decide, by decide⟩

/-- C10: record equality is symmetric, and therefore the
`next(filter(lambda r: r == fresh_record, refreshed_old_records))` lookup
in the refresh branch never fails: no call of the engine, for any inputs
and any store behaviour, raises `StopIteration`. -/
theorem matched_former_lookup_total :
    (∀ a b : Record, identical a b = identical b a)
    ∧ ∀ (fresh former : List Record) (now ret : Int) (orc : List Op → Bool),
        (diff_and_update_state fresh former now ret orc).outcome
          ≠ Except.error EngineError.stopIteration :=
  ⟨identical_symm, engine_outcome_ne_stopIteration⟩

/-- Witness for C10 at a concrete refresh-branch call. -/
theorem matched_former_lookup_total_witness :
    (diff_and_update_state [exIdB] [exIdA] 1003600 86400 noFailure).outcome
      ≠ Except.error EngineError.stopIteration :=
  matched_former_lookup_total.2 [exIdB] [exIdA] 1003600 86400 noFailure

/-- C9: Batch emptiness.  On a successful call, no `bulk_write` is
submitted with an empty operation list; the insert/replace batch is
submitted iff some insert/replace was queued, and the delete batch is
submitted iff some delete was queued. -/
theorem batch_emptiness (fresh former : List Record) (now ret : Int)
    (orc : List Op → Bool) (calls : List (List Op)) (res : DiffResults)
    (st : FreshAcc) (dst : DeleteAcc)
    (h : diff_and_update_state fresh former now ret orc = ⟨calls, Except.ok res⟩)
    (h1 : freshPass (refreshedOf fresh former) fresh = Except.ok st)
    (h2 : deletePass (now - ret) (unseenOf fresh former) = Except.ok dst) :
    (∀ c ∈ calls, c ≠ [])
    ∧ (st.bulk1 ≠ [] ↔ st.bulk1 ∈ calls)
    ∧ (dst.bulk2 ≠ [] ↔ dst.bulk2 ∈ calls) := by
  rcases engine_ok_elim fresh former now ret orc calls res h with
    ⟨st', dst', h1', h2', hres, hcalls⟩
  have hst : st' = st := by rw [h1] at h1'; exact (Except.ok.inj h1').symm
  have hdst : dst' = dst := by rw [h2] at h2'; exact (Except.ok.inj h2').symm
  subst hst
  subst hdst
  subst hcalls
  have hemp : ∀ l : List Op, l.isEmpty = true ↔ l = [] := by
    intro l; cases l <;> simp
  have hno : ∀ c ∈ (if st'.bulk1.isEmpty then [] else [st'.bulk1])
      ++ (if dst'.bulk2.isEmpty then [] else [dst'.bulk2]), c ≠ [] := by
    intro c hc
    rcases List.mem_append.mp hc with h' | h'
    · by_cases e1 : st'.bulk1.isEmpty = true
      · rw [if_pos e1] at h'; cases h'
      · rw [if_neg e1] at h'
        obtain rfl := List.mem_singleton.mp h'
        exact fun hnil => e1 ((hemp _).mpr hnil)
    · by_cases e2 : dst'.bulk2.isEmpty = true
      · rw [if_pos e2] at h'; cases h'
      · rw [if_neg e2] at h'
        obtain rfl := List.mem_singleton.mp h'
        exact fun hnil => e2 ((hemp _).mpr hnil)
  refine ⟨hno, ⟨?_, fun hmem => hno _ hmem⟩, ⟨?_, fun hmem => hno _ hmem⟩⟩
  · intro hne
    apply List.mem_append_left
    rw [if_neg fun he => hne ((hemp _).mp he)]
    exact List.mem_singleton.mpr rfl
  · intro hne
    apply List.mem_append_right
    rw [if_neg fun he => hne ((hemp _).mp he)]
    exact List.mem_singleton.mpr rfl

/-- Witness for C9 at a call that submits both batches. -/
theorem batch_emptiness_witness :
    [Op.insertOne exNew] ∈ [[Op.insertOne exNew], [Op.deleteOne [("id", Value.vInt 3)]]]
    ∧ [Op.insertOne exNew] ≠ [] :=
  ⟨by decide,
    (batch_emptiness [exNew] [exStale] 1003600 86400 noFailure
      [[Op.insertOne exNew], [Op.deleteOne [("id", Value.vInt 3)]]]
      ⟨[exNew], [], [exStale]⟩
      ⟨[Op.insertOne exNew], [exNew], []⟩
      ⟨[Op.deleteOne [("id", Value.vInt 3)]], [exStale]⟩
      (by decide) (by decide) (by decide)).2.1.mpr (by decide)⟩

/-- C7: every `ChangedRecord` in the returned `changed` list has at least
one of its added/changed/removed field maps non-empty. -/
theorem changed_record_nonempty (fresh former : List Record) (now ret : Int)
    (orc : List Op → Bool) (calls : List (List Op)) (res : DiffResults)
    (h : diff_and_update_state fresh former now ret orc = ⟨calls, Except.ok res⟩) :
    ∀ c ∈ res.changed, c.added ≠ [] ∨ c.changed ≠ [] ∨ c.removed ≠ [] := by
  rcases engine_ok_elim fresh former now ret orc calls res h with
    ⟨st, dst, h1, h2, hres, hcalls⟩
  subst hres
  intro c hc
  dsimp only at hc
  have hok := freshPass_ok_freshOk _ _ _ h1
  have hchar := freshPass_ok _ fresh hok
  rw [h1] at hchar
  have hst := Except.ok.inj hchar
  rw [hst] at hc
  dsimp only at hc
  rcases List.mem_filterMap.mp hc with ⟨r, hr, hcr⟩
  rcases changedEntryFor_elim _ r c hcr with ⟨f, _, hcdef, hne⟩
  subst hcdef
  dsimp only
  by_contra hall
  push_neg at hall
  rcases hall with ⟨ha, hb, hc2⟩
  rw [ha, hb, hc2] at hne
  simp at hne

/-- Witness for C7 at a call producing one changed record. -/
theorem changed_record_nonempty_witness :
    (⟨exIdB, [], [("name", Value.vStr "a", Value.vStr "b")], []⟩ : ChangedRecord).added ≠ []
    ∨ (⟨exIdB, [], [("name", Value.vStr "a", Value.vStr "b")], []⟩ : ChangedRecord).changed ≠ []
    ∨ (⟨exIdB, [], [("name", Value.vStr "a", Value.vStr "b")], []⟩ : ChangedRecord).removed ≠ [] :=
  changed_record_nonempty [exIdB] [exIdA] 1003600 86400 noFailure
    [[Op.replaceOne [("id", Value.vInt 1)] exIdB]]
    ⟨[], [⟨exIdB, [], [("name", Value.vStr "a", Value.vStr "b")], []⟩], []⟩
    (by decide) _ (by decide)

/-- C5: Unconditional timestamp refresh.  On a successful call, every
fresh record with an identity-equal former record gets a Replace
operation — keyed by its identity filter and carrying the fresh record's
full new row, refreshed timestamp included — into the submitted
insert/replace batch, with no condition on the field diff. -/
theorem unconditional_timestamp_refresh (fresh former : List Record) (now ret : Int)
    (orc : List Op → Bool) (calls : List (List Op)) (res : DiffResults)
    (h : diff_and_update_state fresh former now ret orc = ⟨calls, Except.ok res⟩)
    (r : Record) (hr : r ∈ fresh) (hm : hasFormerMatch former r = true) :
    ∃ filt, identityFilter r = some filt ∧ ∃ c ∈ calls, Op.replaceOne filt r ∈ c := by
  rcases engine_ok_elim fresh former now ret orc calls res h with
    ⟨st, dst, h1, h2, hres, hcalls⟩
  have hok := freshPass_ok_freshOk _ _ _ h1
  have hmr : matchedByRefreshed (refreshedOf fresh former) r = true := by
    rw [matchedByRefreshed_refreshedOf fresh former r hr]
    exact hm
  rcases Option.isSome_iff_exists.mp (hok r hr hmr) with ⟨filt, hfilt⟩
  have hchar := freshPass_ok _ fresh hok
  rw [h1] at hchar
  have hst := Except.ok.inj hchar
  have hmem : Op.replaceOne filt r ∈ st.bulk1 := by
    rw [hst]
    dsimp only
    refine List.mem_filterMap.mpr ⟨r, hr, ?_⟩
    unfold opFor
    rw [if_pos hmr, hfilt]
    rfl
  have hne : ¬st.bulk1.isEmpty = true := by
    intro he
    cases hbl : st.bulk1 with
    | nil => rw [hbl] at hmem; cases hmem
    | cons a l => rw [hbl] at he; simp at he
  refine ⟨filt, hfilt, st.bulk1, ?_, hmem⟩
  rw [hcalls]
  apply List.mem_append_left
  rw [if_neg hne]
  exact List.mem_singleton.mpr rfl

/-- Witness for C5 at a refresh with zero field changes: only the
timestamp differs, and the Replace is still queued and submitted. -/
theorem unconditional_timestamp_refresh_witness :
    ∃ filt, identityFilter exSame = some filt
      ∧ ∃ c ∈ [[Op.replaceOne [("id", Value.vInt 1)] exSame]],
          Op.replaceOne filt exSame ∈ c :=
  unconditional_timestamp_refresh [exSame] [exSame0] 5000 86400 noFailure
    [[Op.replaceOne [("id", Value.vInt 1)] exSame]] ⟨[], [], []⟩
    (by decide) exSame (by decide) (by decide)

/-- C3: Retention boundary.  On a successful call, a former record with
no identity-equal fresh record is in the removed results iff its
`last_updated` is strictly below `now - retention_period`; when it is, a
delete keyed by its identity filter is queued in the submitted delete
batch; conversely every submitted delete comes from such a stale unseen
record — a non-stale unseen record contributes nothing.  The default
retention period is one day. -/
theorem retention_boundary (fresh former : List Record) (now ret : Int)
    (orc : List Op → Bool) (calls : List (List Op)) (res : DiffResults)
    (h : diff_and_update_state fresh former now ret orc = ⟨calls, Except.ok res⟩) :
    (∀ r ∈ former, matchedByFresh fresh r = false →
        ((r ∈ res.removed ↔ r.last_updated < now - ret)
          ∧ (r.last_updated < now - ret →
              ∃ filt, identityFilter r = some filt ∧ ∃ c ∈ calls, Op.deleteOne filt ∈ c)))
    ∧ (∀ c ∈ calls, ∀ filt, Op.deleteOne filt ∈ c →
        ∃ r ∈ former, matchedByFresh fresh r = false
          ∧ r.last_updated < now - ret ∧ identityFilter r = some filt)
    ∧ defaultRetentionPeriod = 24 * 60 * 60 := by
  rcases engine_ok_elim fresh former now ret orc calls res h with
    ⟨st, dst, h1, h2, hres, hcalls⟩
  subst hres
  have hdok := deletePass_ok_deleteOk _ _ _ h2
  have hdchar := deletePass_ok (now - ret) (unseenOf fresh former) hdok
  rw [h2] at hdchar
  have hdst := Except.ok.inj hdchar
  have hok := freshPass_ok_freshOk _ _ _ h1
  have hchar := freshPass_ok _ fresh hok
  rw [h1] at hchar
  have hst := Except.ok.inj hchar
  refine ⟨?_, ?_, rfl⟩
  · intro r hrf hnm
    have hrU : r ∈ unseenOf fresh former := (mem_unseenOf fresh former r).mpr ⟨hrf, hnm⟩
    constructor
    · dsimp only
      rw [hdst]
      dsimp only
      rw [List.mem_filter]
      constructor
      · rintro ⟨_, hs⟩
        exact gt_iff_lt.mp (of_decide_eq_true hs)
      · intro hs
        exact ⟨hrU, decide_eq_true (gt_iff_lt.mpr hs)⟩
    · intro hs
      have hs' : now - ret > r.last_updated := gt_iff_lt.mpr hs
      rcases Option.isSome_iff_exists.mp (hdok r hrU hs') with ⟨filt, hfilt⟩
      have hmem2 : Op.deleteOne filt ∈ dst.bulk2 := by
        rw [hdst]
        dsimp only
        refine List.mem_filterMap.mpr ⟨r, hrU, ?_⟩
        unfold deleteOpFor
        rw [if_pos hs', hfilt]
        rfl
      have hne : ¬dst.bulk2.isEmpty = true := by
        intro he
        cases hbl : dst.bulk2 with
        | nil => rw [hbl] at hmem2; cases hmem2
        | cons a l => rw [hbl] at he; simp at he
      refine ⟨filt, hfilt, dst.bulk2, ?_, hmem2⟩
      rw [hcalls]
      apply List.mem_append_right
      rw [if_neg hne]
      exact List.mem_singleton.mpr rfl
  · intro c hc filt hop
    rw [hcalls] at hc
    rcases List.mem_append.mp hc with h' | h'
    · exfalso
      by_cases e1 : st.bulk1.isEmpty = true
      · rw [if_pos e1] at h'; cases h'
      · rw [if_neg e1] at h'
        obtain rfl := List.mem_singleton.mp h'
        rw [hst] at hop
        dsimp only at hop
        rcases List.mem_filterMap.mp hop with ⟨r, hr, hopr⟩
        unfold opFor at hopr
        by_cases hmm : matchedByRefreshed (refreshedOf fresh former) r = true
        · rw [if_pos hmm] at hopr
          cases hfo : identityFilter r with
          | none => rw [hfo] at hopr; cases hopr
          | some f2 =>
            rw [hfo] at hopr
            simp at hopr
        · rw [if_neg hmm] at hopr
          exact Op.noConfusion (Option.some.inj hopr)
    · by_cases e2 : dst.bulk2.isEmpty = true
      · rw [if_pos e2] at h'; cases h'
      · rw [if_neg e2] at h'
        obtain rfl := List.mem_singleton.mp h'
        rw [hdst] at hop
        dsimp only at hop
        rcases List.mem_filterMap.mp hop with ⟨r, hrU, hopr⟩
        unfold deleteOpFor at hopr
        by_cases hs : now - ret > r.last_updated
        · rw [if_pos hs] at hopr
          cases hfo : identityFilter r with
          | none => rw [hfo] at hopr; simp at hopr
          | some f2 =>
            rw [hfo] at hopr
            simp only [Option.map_some'] at hopr
            obtain rfl : f2 = filt := Op.deleteOne.inj (Option.some.inj hopr)
            rcases (mem_unseenOf fresh former r).mp hrU with ⟨hrF, hnm⟩
            exact ⟨r, hrF, hnm, gt_iff_lt.mp hs, hfo⟩
        · rw [if_neg hs] at hopr
          cases hopr

/-- Witness for C3: a stale unseen record is removed and its delete is
queued;  the call's only delete comes from it. -/
theorem retention_boundary_witness :
    (exStale ∈ (DiffResults.mk [exNew] [] [exStale]).removed ↔
        exStale.last_updated < 1003600 - 86400)
    ∧ exStale.last_updated < 1003600 - 86400 :=
  ⟨((retention_boundary [exNew] [exStale] 1003600 86400 noFailure
      [[Op.insertOne exNew], [Op.deleteOne [("id", Value.vInt 3)]]]
      ⟨[exNew], [], [exStale]⟩ (by decide)).1 exStale (by decide) (by decide)).1,
    by decide⟩

/-- The record `{x:1}` declaring identifying field `id` absent from its
data: identity-filter construction must raise. -/
def badRec : Record := ⟨[("x", Value.vInt 1)], ["id"], 1000⟩

/-- C8: Malformed-record fail-fast.  If a record for which an identity
filter is constructed — a matched fresh record being replaced, or an
unseen stale record being deleted — lacks one of its identifying fields
in `data`, the call fails with the `KeyError` raised at identity-filter
construction. -/
theorem malformed_record_fail_fast (fresh former : List Record) (now ret : Int)
    (r : Record) (k : String)
    (hk : k ∈ r.identifying_fields) (hmiss : lookupField r.data k = none)
    (hcase : (r ∈ fresh ∧ hasFormerMatch former r = true)
      ∨ (r ∈ former ∧ matchedByFresh fresh r = false ∧ r.last_updated < now - ret)) :
    (diff_and_update_state fresh former now ret noFailure).outcome
      = Except.error EngineError.keyError := by
  have hfo : identityFilter r = none := identityFilter_eq_none_of_missing r k hk hmiss
  unfold diff_and_update_state
  dsimp only
  cases hfp : freshPass (refreshedOf fresh former) fresh with
  | error e =>
    dsimp only
    unfold freshPass at hfp
    rw [freshPassAux_error_eq _ _ _ _ hfp]
  | ok st =>
    dsimp only
    rw [if_neg (by simp [noFailure])]
    rcases hcase with ⟨hrf, hm⟩ | ⟨hrF, hnm, hstale⟩
    · exfalso
      have hok := freshPass_ok_freshOk _ _ _ hfp
      have hmr : matchedByRefreshed (refreshedOf fresh former) r = true := by
        rw [matchedByRefreshed_refreshedOf fresh former r hrf]
        exact hm
      have hsor := hok r hrf hmr
      rw [hfo] at hsor
      cases hsor
    · cases hdp : deletePass (now - ret) (unseenOf fresh former) with
      | error e =>
        dsimp only
        unfold deletePass at hdp
        rw [deletePassAux_error_eq _ _ _ _ hdp]
      | ok dst =>
        exfalso
        have hdok := deletePass_ok_deleteOk _ _ _ hdp
        have hrU : r ∈ unseenOf fresh former :=
          (mem_unseenOf fresh former r).mpr ⟨hrF, hnm⟩
        have hsor := hdok r hrU (gt_iff_lt.mpr hstale)
        rw [hfo] at hsor
        cases hsor

/-- Witness for C8: a stale unseen record missing its `id` field makes
the call raise `KeyError`. -/
theorem malformed_record_fail_fast_witness :
    (diff_and_update_state [] [badRec] 1000000 86400 noFailure).outcome
      = Except.error EngineError.keyError :=
  malformed_record_fail_fast [] [badRec] 1000000 86400 badRec "id" (by decide) (by decide)
    (Or.inr ⟨by decide, by decide, by decide⟩)

/-- Former record `{id:7, x:1}`. -/
def cexA : Record := ⟨[("id", Value.vInt 7), ("x", Value.vInt 1)], ["id"], 1000000⟩

/-- Fresh record `{id:7, x:2}`, identity-equal to `cexA`, different data. -/
def cexB : Record := ⟨[("id", Value.vInt 7), ("x", Value.vInt 2)], ["id"], 1000100⟩

/-- The results of reconciling the duplicated fresh list `[cexB, cexB]`
against former state `[cexA]`: the same fresh record is the record of two
changed entries. -/
def cexRes : DiffResults :=
  ⟨[], [⟨cexB, [], [("x", Value.vInt 1, Value.vInt 2)], []⟩,
        ⟨cexB, [], [("x", Value.vInt 1, Value.vInt 2)], []⟩], []⟩

/-- C1 counterexample: with a fresh list containing the same record
twice, the record appears in the `changed` results as the record of two
entries — not in `added`, not of exactly one changed entry, and not
absent from `changed` — so the stated trichotomy fails. -/
theorem classification_completeness_counterexample :
    (diff_and_update_state [cexB, cexB] [cexA] 1000100 86400 noFailure).outcome
      = Except.ok cexRes
    ∧ cexB ∈ [cexB, cexB]
    ∧ cexB ∉ cexRes.added
    ∧ cexRes.changed.countP (fun c => decide (c.record = cexB)) = 2 := by
  decide

/-- C1 (amended with duplicate-free fresh input): on a successful call
with `fresh_records` containing no duplicate record, every fresh record
is classified in exactly one of three ways — no identity-equal former
record: it is in `added` and the record of no changed entry; an
identity-equal former record found as first match with a non-empty field
diff: not in `added`, the record of exactly one changed entry; first
match with an empty diff: not in `added`, the record of no changed
entry.  A former match exists iff the first-match lookup succeeds. -/
theorem classification_completeness (fresh former : List Record) (now ret : Int)
    (orc : List Op → Bool) (calls : List (List Op)) (res : DiffResults)
    (hnd : fresh.Nodup)
    (h : diff_and_update_state fresh former now ret orc = ⟨calls, Except.ok res⟩)
    (r : Record) (hr : r ∈ fresh) :
    (hasFormerMatch former r = false →
        r ∈ res.added ∧ res.changed.countP (fun c => decide (c.record = r)) = 0)
    ∧ (∀ f, (refreshedOf fresh former).find? (fun x => identical x r) = some f →
        r ∉ res.added
        ∧ res.changed.countP (fun c => decide (c.record = r))
            = (if ((addedFields f.data r.data).isEmpty
                  && (changedFields f.data r.data).isEmpty
                  && (removedFields f.data r.data).isEmpty) = true then 0 else 1))
    ∧ (hasFormerMatch former r = true
        ↔ ∃ f, (refreshedOf fresh former).find? (fun x => identical x r) = some f) := by
  rcases engine_ok_elim fresh former now ret orc calls res h with
    ⟨st, dst, h1, h2, hres, hcalls⟩
  subst hres
  have hok := freshPass_ok_freshOk _ _ _ h1
  have hchar := freshPass_ok _ fresh hok
  rw [h1] at hchar
  have hst := Except.ok.inj hchar
  have hbridge : matchedByRefreshed (refreshedOf fresh former) r = hasFormerMatch former r :=
    matchedByRefreshed_refreshedOf fresh former r hr
  have hq1 : ∀ x, (Option.any (fun c => decide (c.record = r))
      (changedEntryFor (refreshedOf fresh former) x)) = true → x = r := by
    intro x hx
    cases hce : changedEntryFor (refreshedOf fresh former) x with
    | none => rw [hce] at hx; cases hx
    | some c =>
      rw [hce] at hx
      simp only [Option.any] at hx
      have hcr : c.record = r := of_decide_eq_true hx
      rcases changedEntryFor_elim _ x c hce with ⟨f, _, hcdef, _⟩
      rw [hcdef] at hcr
      exact hcr
  have hcount : st.changed.countP (fun c => decide (c.record = r))
      = if Option.any (fun c => decide (c.record = r))
            (changedEntryFor (refreshedOf fresh former) r) = true then 1 else 0 := by
    rw [hst]
    dsimp only
    rw [countP_filterMap (changedEntryFor (refreshedOf fresh former))
        (fun c => decide (c.record = r))
        (fun x => Option.any (fun c => decide (c.record = r))
          (changedEntryFor (refreshedOf fresh former) x)) fresh (fun x _ => rfl)]
    exact countP_eq_of_unique fresh _ r hnd hr hq1
  refine ⟨?_, ?_, ?_⟩
  · intro hnm
    have hmr : matchedByRefreshed (refreshedOf fresh former) r = false := by
      rw [hbridge]; exact hnm
    constructor
    · dsimp only
      rw [hst]
      dsimp only
      exact List.mem_filter.mpr ⟨hr, by rw [hmr]; rfl⟩
    · dsimp only
      rw [hcount]
      have hce : changedEntryFor (refreshedOf fresh former) r = none := by
        unfold changedEntryFor
        rw [if_neg (by rw [hmr]; simp)]
      rw [hce]
      simp [Option.any]
  · intro f hf
    have hpf : identical f r = true := by
      simpa using List.find?_some hf
    have hmr : matchedByRefreshed (refreshedOf fresh former) r = true := by
      unfold matchedByRefreshed
      rw [List.any_eq_true]
      exact ⟨f, List.mem_of_find?_eq_some hf, hpf⟩
    constructor
    · dsimp only
      rw [hst]
      dsimp only
      intro hmem
      have hmm := (List.mem_filter.mp hmem).2
      rw [hmr] at hmm
      cases hmm
    · dsimp only
      rw [hcount]
      have hce : changedEntryFor (refreshedOf fresh former) r
          = if ((addedFields f.data r.data).isEmpty
              && (changedFields f.data r.data).isEmpty
              && (removedFields f.data r.data).isEmpty) = true then none
            else some ⟨r, addedFields f.data r.data, changedFields f.data r.data,
                  removedFields f.data r.data⟩ := by
        unfold changedEntryFor
        rw [if_pos hmr, hf]
      by_cases hemp : ((addedFields f.data r.data).isEmpty
          && (changedFields f.data r.data).isEmpty
          && (removedFields f.data r.data).isEmpty) = true
      · rw [hcount] at hcount ⊢
        rw [hce, if_pos hemp, if_pos hemp]
        simp [Option.any]
      · rw [hce, if_neg hemp, if_neg hemp]
        simp [Option.any]
  · constructor
    · intro hm
      have hmr : matchedByRefreshed (refreshedOf fresh former) r = true := by
        rw [hbridge]; exact hm
      have hfs : (List.find? (fun x => identical x r) (refreshedOf fresh former)).isSome := by
        rw [List.find?_isSome]
        simpa [matchedByRefreshed, List.any_eq_true] using hmr
      exact Option.isSome_iff_exists.mp hfs
    · rintro ⟨f, hf⟩
      rw [← hbridge]
      unfold matchedByRefreshed
      rw [List.any_eq_true]
      exact ⟨f, List.mem_of_find?_eq_some hf, by simpa using List.find?_some hf⟩

/-- Witness for the amended C1 at a refresh with a non-empty diff. -/
theorem classification_completeness_witness :
    exIdB ∉ (DiffResults.mk []
        [⟨exIdB, [], [("name", Value.vStr "a", Value.vStr "b")], []⟩] []).added
    ∧ (DiffResults.mk []
        [⟨exIdB, [], [("name", Value.vStr "a", Value.vStr "b")], []⟩] []).changed.countP
          (fun c => decide (c.record = exIdB))
        = (if ((addedFields exIdA.data exIdB.data).isEmpty
              && (changedFields exIdA.data exIdB.data).isEmpty
              && (removedFields exIdA.data exIdB.data).isEmpty) = true then 0 else 1) :=
  (classification_completeness [exIdB] [exIdA] 1003600 86400 noFailure
      [[Op.replaceOne [("id", Value.vInt 1)] exIdB]]
      ⟨[], [⟨exIdB, [], [("name", Value.vStr "a", Value.vStr "b")], []⟩], []⟩
      (by decide) (by decide) exIdB (by decide)).2.1 exIdA (by decide)

/-- A store whose `bulk_write` raises exactly on the batch
`[InsertOne exNew]` — the insert/replace batch of the C4 scenario. -/
def cexOracle : List Op → Bool := fun ops => decide (ops = [Op.insertOne exNew])

/-- C4 counterexample: a call whose insert/replace batch write raises.
The submitted calls are exactly the failed insert/replace batch — the
delete batch is never attempted — although the same call with a
non-raising store does submit a delete batch for the stale record. -/
theorem second_batch_attempted_counterexample :
    diff_and_update_state [exNew] [exStale] 1003600 86400 cexOracle
      = ⟨[[Op.insertOne exNew]], Except.error EngineError.bulkWriteError⟩
    ∧ diff_and_update_state [exNew] [exStale] 1003600 86400 noFailure
      = ⟨[[Op.insertOne exNew], [Op.deleteOne [("id", Value.vInt 3)]]],
         Except.ok ⟨[exNew], [], [exStale]⟩⟩ := by
  decide

/-- C4 (amended): when the insert/replace batch write raises, the
exception propagates to the caller and the delete batch write is NOT
attempted: the call's submitted batches are exactly the one failed
insert/replace batch and its outcome is the bulk-write error. -/
theorem insert_batch_failure_aborts (fresh former : List Record) (now ret : Int)
    (orc : List Op → Bool) (st : FreshAcc)
    (h1 : freshPass (refreshedOf fresh former) fresh = Except.ok st)
    (hne : st.bulk1 ≠ [])
    (hfail : orc st.bulk1 = true) :
    diff_and_update_state fresh former now ret orc
      = ⟨[st.bulk1], Except.error EngineError.bulkWriteError⟩ := by
  unfold diff_and_update_state
  dsimp only
  rw [h1]
  dsimp only
  have hie : st.bulk1.isEmpty = false := by
    cases hbl : st.bulk1 with
    | nil => exact absurd hbl hne
    | cons a l => rfl
  rw [hie, hfail]
  simp

/-- Witness for the amended C4 at the concrete failing call. -/
theorem insert_batch_failure_aborts_witness :
    diff_and_update_state [exNew] [exStale] 1003600 86400 cexOracle
      = ⟨[[Op.insertOne exNew]], Except.error EngineError.bulkWriteError⟩ :=
  insert_batch_failure_aborts [exNew] [exStale] 1003600 86400 cexOracle
    ⟨[Op.insertOne exNew], [exNew], []⟩ (by decide) (by decide) (by decide)

/-! ### Key agreement: the well-formed world in which identity behaves
as a key.  Python dicts cannot repeat keys and a deployment uses one
fixed set of identifying fields; under these conditions record identity
is an equivalence and the store behaves as a map keyed by it. -/

/-- `a` and `b` carry the same value for every field of `L`. -/
def agreeOn (L : List String) (a b : Record) : Prop :=
  ∀ k ∈ L, ∃ v, lookupField a.data k = some v ∧ lookupField b.data k = some v

/-- A record is well-formed for the uniform identifying-field list `L`:
it declares exactly `L`, carries every field of `L` in its data, and its
data keys are duplicate-free (a Python dict invariant). -/
def wfRecord (L : List String) (r : Record) : Prop :=
  r.identifying_fields = L
  ∧ (∀ k ∈ L, (lookupField r.data k).isSome)
  ∧ (r.data.map Prod.fst).Nodup

instance (L : List String) (r : Record) : Decidable (wfRecord L r) :=
  decidable_of_iff (r.identifying_fields = L
    ∧ (∀ k ∈ L, (lookupField r.data k).isSome)
    ∧ (r.data.map Prod.fst).Nodup) Iff.rfl

theorem agreeOn_symm {L : List String} {a b : Record} (h : agreeOn L a b) :
    agreeOn L b a := fun k hk =>
  (h k hk).imp fun _ hv => ⟨hv.2, hv.1⟩

theorem agreeOn_trans {L : List String} {a b c : Record}
    (h1 : agreeOn L a b) (h2 : agreeOn L b c) : agreeOn L a c := by
  intro k hk
  rcases h1 k hk with ⟨v, hv1, hv2⟩
  rcases h2 k hk with ⟨w, hw1, hw2⟩
  rw [hv2] at hw1
  obtain rfl : v = w := Option.some.inj hw1
  exact ⟨v, hv1, hw2⟩

theorem agreeOn_refl {L : List String} {r : Record} (h : wfRecord L r) :
    agreeOn L r r := by
  intro k hk
  rcases Option.isSome_iff_exists.mp (h.2.1 k hk) with ⟨v, hv⟩
  exact ⟨v, hv, hv⟩

theorem identical_iff_agreeOn {L : List String} {a b : Record}
    (ha : wfRecord L a) (hb : wfRecord L b) :
    identical a b = true ↔ agreeOn L a b := by
  unfold identical
  rw [ha.1, hb.1, List.all_append, Bool.and_self, List.all_eq_true]
  constructor
  · intro h k hk
    have hm := h k hk
    cases hva : lookupField a.data k with
    | none => rw [hva] at hm; cases hm
    | some va =>
      cases hvb : lookupField b.data k with
      | none => rw [hva, hvb] at hm; cases hm
      | some vb =>
        rw [hva, hvb] at hm
        have hvv : va = vb := of_decide_eq_true hm
        exact ⟨va, rfl, by rw [hvv]⟩
  · intro h k hk
    rcases h k hk with ⟨v, hv1, hv2⟩
    rw [hv1, hv2]
    simp

theorem pairwise_nonagree_ne {L : List String} {l : List Record}
    (hp : l.Pairwise fun a b => ¬agreeOn L a b)
    (hw : ∀ r ∈ l, wfRecord L r) : l.Nodup := by
  refine hp.imp_of_mem ?_
  intro a b ha _ hab
  intro he
  subst he
  exact hab (agreeOn_refl (hw a ha))

theorem pairwise_nonagree_forall {L : List String} {l : List Record}
    (hp : l.Pairwise fun a b => ¬agreeOn L a b) :
    ∀ a ∈ l, ∀ b ∈ l, a ≠ b → ¬agreeOn L a b := by
  have hsym : Symmetric fun a b => ¬agreeOn L a b := by
    intro a b hab hba
    exact hab (agreeOn_symm hba)
  intro a ha b hb hne
  exact List.Pairwise.forall hsym hp ha hb hne

/-! ### Soundness of identity filters against the store's matcher -/

theorem identityFilterAux_matches (data : FieldMap) (ks : List String) (filt : FieldMap)
    (h : identityFilterAux data ks = some filt) (s : Record) :
    matchesFilter filt s = true ↔
      ∀ k ∈ ks, ∃ v, lookupField data k = some v ∧ lookupField s.data k = some v := by
  induction ks generalizing filt with
  | nil =>
    obtain rfl : filt = [] := (Option.some.inj h).symm
    simp [matchesFilter]
  | cons k ks ih =>
    rw [identityFilterAux] at h
    cases hv : lookupField data k with
    | none => rw [hv] at h; cases h
    | some v =>
      rw [hv] at h
      cases haux : identityFilterAux data ks with
      | none => rw [haux] at h; cases h
      | some rest =>
        rw [haux] at h
        obtain rfl : filt = (k, v) :: rest := (Option.some.inj h).symm
        unfold matchesFilter
        rw [List.all_cons, Bool.and_eq_true]
        constructor
        · rintro ⟨h1, h2⟩ k' hk'
          rcases List.mem_cons.mp hk' with rfl | hk''
          · exact ⟨v, hv, of_decide_eq_true h1⟩
          · exact (ih rest haux).mp h2 k' hk''
        · intro hall
          constructor
          · rcases hall k (List.mem_cons_self k ks) with ⟨w, hw1, hw2⟩
            rw [hv] at hw1
            obtain rfl : v = w := Option.some.inj hw1
            exact decide_eq_true hw2
          · exact (ih rest haux).mpr fun k' hk' => hall k' (List.mem_cons_of_mem k hk')

theorem identityFilter_sound {L : List String} (r : Record) (hw : wfRecord L r) :
    ∃ filt, identityFilter r = some filt
      ∧ ∀ s, (matchesFilter filt s = true ↔ agreeOn L r s) := by
  have hpres : ∀ k ∈ r.identifying_fields, (lookupField r.data k).isSome := by
    intro k hk
    exact hw.2.1 k (hw.1 ▸ hk)
  rcases Option.isSome_iff_exists.mp (identityFilter_isSome_of_present r hpres) with ⟨filt, hf⟩
  refine ⟨filt, hf, fun s => ?_⟩
  have hch := identityFilterAux_matches r.data r.identifying_fields filt hf s
  rw [hw.1] at hch
  exact hch

/-! ### Diffing a record against itself yields the empty diff -/

theorem lookupField_of_mem_nodup {d : FieldMap} (hnd : (d.map Prod.fst).Nodup)
    {kv : String × Value} (h : kv ∈ d) : lookupField d kv.1 = some kv.2 := by
  induction d with
  | nil => cases h
  | cons hd rest ih =>
    rw [List.map_cons, List.nodup_cons] at hnd
    rcases List.mem_cons.mp h with rfl | h'
    · simp [lookupField]
    · have hne : ¬hd.1 = kv.1 := by
        intro hc
        exact hnd.1 (hc ▸ List.mem_map_of_mem Prod.fst h')
      rw [lookupField, if_neg hne]
      exact ih hnd.2 h'

theorem fieldDiff_self (d : FieldMap) (hnd : (d.map Prod.fst).Nodup) :
    addedFields d d = [] ∧ changedFields d d = [] ∧ removedFields d d = [] := by
  refine ⟨?_, ?_, ?_⟩
  · unfold addedFields
    rw [List.filter_eq_nil_iff]
    intro kv hkv
    simp [hasKey, lookupField_isSome_of_mem hkv]
  · unfold changedFields
    rw [List.filterMap_eq_nil_iff]
    intro kv hkv
    rw [lookupField_of_mem_nodup hnd hkv]
    simp
  · unfold removedFields
    rw [List.filter_eq_nil_iff]
    intro kv hkv
    simp [hasKey, lookupField_isSome_of_mem hkv]

/-! ### Store mutation under key uniqueness -/

/-- Sequential application of one batch of operations. -/
def applyOps (store : List Record) (ops : List Op) : List Record :=
  ops.foldl applyOp store

theorem replaceFirst_eq_map (S : List Record) (filt : FieldMap) (doc : Record)
    (huniq : ∀ a ∈ S, ∀ b ∈ S, matchesFilter filt a = true →
      matchesFilter filt b = true → a = b)
    (hnd : S.Nodup) :
    replaceFirst S filt doc
      = S.map fun s => if matchesFilter filt s = true then doc else s := by
  induction S with
  | nil => rfl
  | cons s S' ih =>
    rw [List.nodup_cons] at hnd
    rw [replaceFirst, List.map_cons]
    by_cases hm : matchesFilter filt s = true
    · rw [if_pos hm, if_pos hm]
      congr 1
      have hS' : ∀ t ∈ S', (if matchesFilter filt t = true then doc else t) = t := by
        intro t ht
        rw [if_neg ?hmt]
        case hmt =>
          intro hmt
          have hts : t = s := huniq t (List.mem_cons_of_mem s ht) s
            (List.mem_cons_self s S') hmt hm
          exact hnd.1 (hts ▸ ht)
      rw [List.map_congr_left hS']
      simp
    · rw [if_neg hm, if_neg hm]
      congr 1
      exact ih (fun a ha b hb => huniq a (List.mem_cons_of_mem s ha) b
        (List.mem_cons_of_mem s hb)) hnd.2

theorem deleteFirst_sublist (S : List Record) (filt : FieldMap) :
    List.Sublist (deleteFirst S filt) S := by
  induction S with
  | nil => exact List.Sublist.refl []
  | cons s S' ih =>
    rw [deleteFirst]
    by_cases hm : matchesFilter filt s = true
    · rw [if_pos hm]
      exact List.sublist_cons_self s S'
    · rw [if_neg hm]
      exact ih.cons₂ s

theorem deleteFirst_not_mem (S : List Record) (filt : FieldMap) (u : Record)
    (hnd : S.Nodup)
    (huniq : ∀ s ∈ S, matchesFilter filt s = true → s = u)
    (hmu : matchesFilter filt u = true) :
    u ∉ deleteFirst S filt := by
  induction S with
  | nil => intro hc; cases hc
  | cons s S' ih =>
    rw [List.nodup_cons] at hnd
    rw [deleteFirst]
    by_cases hm : matchesFilter filt s = true
    · rw [if_pos hm]
      have hsu : s = u := huniq s (List.mem_cons_self s S') hm
      rw [← hsu]
      exact hnd.1
    · rw [if_neg hm]
      intro hc
      rcases List.mem_cons.mp hc with rfl | hc'
      · exact hm hmu
      · exact ih hnd.2 (fun t ht hmt => huniq t (List.mem_cons_of_mem s ht) hmt) hc'

theorem mem_deleteFirst_of_ne (S : List Record) (filt : FieldMap) (u t : Record)
    (ht : t ∈ S) (hne : t ≠ u)
    (huniq : ∀ s ∈ S, matchesFilter filt s = true → s = u) :
    t ∈ deleteFirst S filt := by
  induction S with
  | nil => cases ht
  | cons s S' ih =>
    rw [deleteFirst]
    by_cases hm : matchesFilter filt s = true
    · rw [if_pos hm]
      have hsu : s = u := huniq s (List.mem_cons_self s S') hm
      rcases List.mem_cons.mp ht with rfl | ht'
      · exact absurd hsu hne
      · exact ht'
    · rw [if_neg hm]
      rcases List.mem_cons.mp ht with rfl | ht'
      · exact List.mem_cons_self t _
      · exact List.mem_cons_of_mem s
          (ih ht' fun x hx hmx => huniq x (List.mem_cons_of_mem s hx) hmx)

theorem replaced_store_facts (L : List String) (S : List Record) (filt : FieldMap)
    (r : Record)
    (hws : ∀ s ∈ S, wfRecord L s) (hps : S.Pairwise fun a b => ¬agreeOn L a b)
    (hwr : wfRecord L r)
    (hsound : ∀ s, matchesFilter filt s = true ↔ agreeOn L r s)
    (hex : ∃ s ∈ S, agreeOn L s r) :
    r ∈ replaceFirst S filt r
    ∧ (∀ t ∈ replaceFirst S filt r, t ∈ S ∨ t = r)
    ∧ (∀ t ∈ replaceFirst S filt r, agreeOn L t r → t = r)
    ∧ (∀ t ∈ S, ¬agreeOn L t r → t ∈ replaceFirst S filt r)
    ∧ (replaceFirst S filt r).Pairwise (fun a b => ¬agreeOn L a b)
    ∧ (∀ t ∈ replaceFirst S filt r, wfRecord L t) := by
  have hSnd : S.Nodup := pairwise_nonagree_ne hps hws
  have huniq : ∀ a ∈ S, ∀ b ∈ S, matchesFilter filt a = true →
      matchesFilter filt b = true → a = b := by
    intro a ha b hb hma hmb
    by_contra hne
    exact pairwise_nonagree_forall hps a ha b hb hne
      (agreeOn_trans (agreeOn_symm ((hsound a).mp hma)) ((hsound b).mp hmb))
  rw [replaceFirst_eq_map S filt r huniq hSnd]
  refine ⟨?_, ?_, ?_, ?_, ?_, ?_⟩
  · rcases hex with ⟨s0, hs0, hag0⟩
    have hm0 : matchesFilter filt s0 = true := (hsound s0).mpr (agreeOn_symm hag0)
    have := List.mem_map_of_mem (fun s => if matchesFilter filt s = true then r else s) hs0
    dsimp only at this
    rw [if_pos hm0] at this
    exact this
  · intro t ht
    rcases List.mem_map.mp ht with ⟨s, hs, hfs⟩
    by_cases hms : matchesFilter filt s = true
    · rw [if_pos hms] at hfs
      exact Or.inr hfs.symm
    · rw [if_neg hms] at hfs
      exact Or.inl (hfs ▸ hs)
  · intro t ht hag
    rcases List.mem_map.mp ht with ⟨s, hs, hfs⟩
    by_cases hms : matchesFilter filt s = true
    · rw [if_pos hms] at hfs
      exact hfs.symm
    · rw [if_neg hms] at hfs
      subst hfs
      exact absurd ((hsound s).mpr (agreeOn_symm hag)) hms
  · intro t ht hnag
    have hmt : ¬matchesFilter filt t = true := fun hmt =>
      hnag (agreeOn_symm ((hsound t).mp hmt))
    have := List.mem_map_of_mem (fun s => if matchesFilter filt s = true then r else s) ht
    dsimp only at this
    rw [if_neg hmt] at this
    exact this
  · rw [List.pairwise_map]
    refine hps.imp_of_mem ?_
    intro a b ha hb hab
    by_cases hma : matchesFilter filt a = true <;>
      by_cases hmb : matchesFilter filt b = true
    · exact absurd (agreeOn_trans (agreeOn_symm ((hsound a).mp hma))
        ((hsound b).mp hmb)) hab
    · rw [if_pos hma, if_neg hmb]
      exact fun hag => hmb ((hsound b).mpr hag)
    · rw [if_neg hma, if_pos hmb]
      exact fun hag => hma ((hsound a).mpr (agreeOn_symm hag))
    · rw [if_neg hma, if_neg hmb]
      exact hab
  · intro t ht
    rcases List.mem_map.mp ht with ⟨s, hs, hfs⟩
    by_cases hms : matchesFilter filt s = true
    · rw [if_pos hms] at hfs
      exact hfs ▸ hwr
    · rw [if_neg hms] at hfs
      exact hfs ▸ hws s hs

/-- Applying the queued insert/replace operations of the fresh-record
loop to the store: every fresh record ends up present; rows agreeing with
a fresh record are that fresh record; rows not agreeing with any fresh
record are untouched; uniqueness and well-formedness are preserved. -/
theorem stageA (L : List String) (refreshed : List Record) :
    ∀ (rs S : List Record),
      (∀ r ∈ rs, wfRecord L r) →
      (∀ s ∈ S, wfRecord L s) →
      rs.Pairwise (fun a b => ¬agreeOn L a b) →
      S.Pairwise (fun a b => ¬agreeOn L a b) →
      (∀ r ∈ rs, (matchedByRefreshed refreshed r = true ↔ ∃ s ∈ S, agreeOn L s r)) →
      (∀ r ∈ rs, r ∈ applyOps S (rs.filterMap (opFor refreshed)))
      ∧ (∀ t ∈ applyOps S (rs.filterMap (opFor refreshed)), t ∈ S ∨ t ∈ rs)
      ∧ (∀ t ∈ applyOps S (rs.filterMap (opFor refreshed)), ∀ r ∈ rs,
          agreeOn L t r → t = r)
      ∧ (∀ t, (∀ r ∈ rs, ¬agreeOn L t r) →
          (t ∈ applyOps S (rs.filterMap (opFor refreshed)) ↔ t ∈ S))
      ∧ (applyOps S (rs.filterMap (opFor refreshed))).Pairwise
          (fun a b => ¬agreeOn L a b)
      ∧ (∀ t ∈ applyOps S (rs.filterMap (opFor refreshed)), wfRecord L t) := by
  intro rs
  induction rs with
  | nil =>
    intro S _ hws _ hps _
    exact ⟨fun r hr => absurd hr (List.not_mem_nil r),
      fun t ht => Or.inl ht,
      fun t _ r hr => absurd hr (List.not_mem_nil r),
      fun t _ => Iff.rfl, hps, hws⟩
  | cons r rs' ih =>
    intro S hwr hws hpr hps hiff
    have hwr0 : wfRecord L r := hwr r (List.mem_cons_self r rs')
    have hprh : ∀ x ∈ rs', ¬agreeOn L r x := (List.pairwise_cons.mp hpr).1
    have hpr' : rs'.Pairwise (fun a b => ¬agreeOn L a b) := (List.pairwise_cons.mp hpr).2
    have hwr' : ∀ x ∈ rs', wfRecord L x := fun x hx => hwr x (List.mem_cons_of_mem r hx)
    by_cases hm : matchedByRefreshed refreshed r = true
    · -- replace branch
      rcases identityFilter_sound r hwr0 with ⟨filt, hfilt, hsound⟩
      have hop : opFor refreshed r = some (Op.replaceOne filt r) := by
        unfold opFor
        rw [if_pos hm, hfilt]
        rfl
      have hex : ∃ s ∈ S, agreeOn L s r := (hiff r (List.mem_cons_self r rs')).mp hm
      obtain ⟨f1, f2, f3, f4, f5, f6⟩ :=
        replaced_store_facts L S filt r hws hps hwr0 hsound hex
      have happ : applyOps S ((r :: rs').filterMap (opFor refreshed))
          = applyOps (replaceFirst S filt r) (rs'.filterMap (opFor refreshed)) := by
        rw [List.filterMap_cons, hop]
        rfl
      have hiff1 : ∀ x ∈ rs', (matchedByRefreshed refreshed x = true ↔
          ∃ s ∈ replaceFirst S filt r, agreeOn L s x) := by
        intro x hx
        rw [hiff x (List.mem_cons_of_mem r hx)]
        constructor
        · rintro ⟨s, hs, hag⟩
          have hnsr : ¬agreeOn L s r := by
            intro hsr
            exact hprh x hx (agreeOn_trans (agreeOn_symm hsr) hag)
          exact ⟨s, f4 s hs hnsr, hag⟩
        · rintro ⟨t, ht, hag⟩
          rcases f2 t ht with h | h
          · exact ⟨t, h, hag⟩
          · exact absurd (h ▸ hag) (hprh x hx)
      obtain ⟨c1, c2, c3, c4, c5, c6⟩ :=
        ih (replaceFirst S filt r) hwr' f6 hpr' f5 hiff1
      refine ⟨?_, ?_, ?_, ?_, by rw [happ]; exact c5, by rw [happ]; exact c6⟩
      · intro x hx
        rw [happ]
        rcases List.mem_cons.mp hx with rfl | hx'
        · exact (c4 x hprh).mpr f1
        · exact c1 x hx'
      · intro t ht
        rw [happ] at ht
        rcases c2 t ht with h | h
        · rcases f2 t h with h' | h'
          · exact Or.inl h'
          · exact Or.inr (h' ▸ List.mem_cons_self r rs')
        · exact Or.inr (List.mem_cons_of_mem r h)
      · intro t ht x hx hag
        rw [happ] at ht
        rcases List.mem_cons.mp hx with rfl | hx'
        · rcases c2 t ht with h | h
          · exact f3 t h hag
          · exact absurd (agreeOn_symm hag) (hprh t h)
        · exact c3 t ht x hx' hag
      · intro t hta
        rw [happ]
        rw [c4 t fun x hx => hta x (List.mem_cons_of_mem r hx)]
        constructor
        · intro h
          rcases f2 t h with h' | h'
          · exact h'
          · exfalso
            have hagtr : agreeOn L t r := by rw [h']; exact agreeOn_refl hwr0
            exact hta r (List.mem_cons_self r rs') hagtr
        · intro h
          exact f4 t h (hta r (List.mem_cons_self r rs'))
    · -- insert branch
      have hop : opFor refreshed r = some (Op.insertOne r) := by
        unfold opFor
        rw [if_neg hm]
      have hnoagree : ∀ s ∈ S, ¬agreeOn L s r := by
        intro s hs hag
        exact hm ((hiff r (List.mem_cons_self r rs')).mpr ⟨s, hs, hag⟩)
      have happ : applyOps S ((r :: rs').filterMap (opFor refreshed))
          = applyOps (S ++ [r]) (rs'.filterMap (opFor refreshed)) := by
        rw [List.filterMap_cons, hop]
        rfl
      have hws1 : ∀ s ∈ S ++ [r], wfRecord L s := by
        intro s hs
        rcases List.mem_append.mp hs with h | h
        · exact hws s h
        · exact (List.mem_singleton.mp h) ▸ hwr0
      have hps1 : (S ++ [r]).Pairwise (fun a b => ¬agreeOn L a b) := by
        rw [List.pairwise_append]
        refine ⟨hps, List.pairwise_singleton _ r, ?_⟩
        intro s hs x hx
        rw [List.mem_singleton.mp hx]
        exact hnoagree s hs
      have hiff1 : ∀ x ∈ rs', (matchedByRefreshed refreshed x = true ↔
          ∃ s ∈ S ++ [r], agreeOn L s x) := by
        intro x hx
        rw [hiff x (List.mem_cons_of_mem r hx)]
        constructor
        · rintro ⟨s, hs, hag⟩
          exact ⟨s, List.mem_append_left _ hs, hag⟩
        · rintro ⟨s, hs, hag⟩
          rcases List.mem_append.mp hs with h | h
          · exact ⟨s, h, hag⟩
          · exact absurd ((List.mem_singleton.mp h) ▸ hag) (hprh x hx)
      obtain ⟨c1, c2, c3, c4, c5, c6⟩ := ih (S ++ [r]) hwr' hws1 hpr' hps1 hiff1
      refine ⟨?_, ?_, ?_, ?_, by rw [happ]; exact c5, by rw [happ]; exact c6⟩
      · intro x hx
        rw [happ]
        rcases List.mem_cons.mp hx with rfl | hx'
        · exact (c4 x hprh).mpr (List.mem_append_right _ (List.mem_singleton_self x))
        · exact c1 x hx'
      · intro t ht
        rw [happ] at ht
        rcases c2 t ht with h | h
        · rcases List.mem_append.mp h with h' | h'
          · exact Or.inl h'
          · exact Or.inr ((List.mem_singleton.mp h') ▸ List.mem_cons_self r rs')
        · exact Or.inr (List.mem_cons_of_mem r h)
      · intro t ht x hx hag
        rw [happ] at ht
        rcases List.mem_cons.mp hx with rfl | hx'
        · rcases c2 t ht with h | h
          · rcases List.mem_append.mp h with h' | h'
            · exact absurd hag (hnoagree t h')
            · exact List.mem_singleton.mp h'
          · exact absurd (agreeOn_symm hag) (hprh t h)
        · exact c3 t ht x hx' hag
      · intro t hta
        rw [happ]
        rw [c4 t fun x hx => hta x (List.mem_cons_of_mem r hx)]
        constructor
        · intro h
          rcases List.mem_append.mp h with h' | h'
          · exact h'
          · exfalso
            have hagtr : agreeOn L t r := by
              rw [List.mem_singleton.mp h']
              exact agreeOn_refl hwr0
            exact hta r (List.mem_cons_self r rs') hagtr
        · exact fun h => List.mem_append_left _ h

/-- Applying the queued delete operations of the unseen-record loop to
the store: survivors are rows of the store that agree with no stale
unseen record; rows not targeted survive; uniqueness and well-formedness
are preserved. -/
theorem stageB (L : List String) (cutoff : Int) :
    ∀ (us S : List Record),
      (∀ u ∈ us, wfRecord L u) →
      (∀ s ∈ S, wfRecord L s) →
      us.Pairwise (fun a b => ¬agreeOn L a b) →
      S.Pairwise (fun a b => ¬agreeOn L a b) →
      (∀ u ∈ us, cutoff > u.last_updated → u ∈ S) →
      (∀ u ∈ us, ∀ s ∈ S, agreeOn L s u → s = u) →
      (∀ t ∈ applyOps S (us.filterMap (deleteOpFor cutoff)), t ∈ S)
      ∧ (∀ t ∈ applyOps S (us.filterMap (deleteOpFor cutoff)),
          ∀ u ∈ us, cutoff > u.last_updated → ¬agreeOn L t u)
      ∧ (∀ t ∈ S, (∀ u ∈ us, cutoff > u.last_updated → ¬agreeOn L t u) →
          t ∈ applyOps S (us.filterMap (deleteOpFor cutoff)))
      ∧ (applyOps S (us.filterMap (deleteOpFor cutoff))).Pairwise
          (fun a b => ¬agreeOn L a b)
      ∧ (∀ t ∈ applyOps S (us.filterMap (deleteOpFor cutoff)), wfRecord L t) := by
  intro us
  induction us with
  | nil =>
    intro S _ hws _ hps _ _
    exact ⟨fun t ht => ht,
      fun t _ u hu => absurd hu (List.not_mem_nil u),
      fun t ht _ => ht, hps, hws⟩
  | cons u us' ih =>
    intro S hwu hws hpu hps hpres huniq
    have hwu0 : wfRecord L u := hwu u (List.mem_cons_self u us')
    have hpuh : ∀ x ∈ us', ¬agreeOn L u x := (List.pairwise_cons.mp hpu).1
    have hpu' : us'.Pairwise (fun a b => ¬agreeOn L a b) := (List.pairwise_cons.mp hpu).2
    have hwu' : ∀ x ∈ us', wfRecord L x := fun x hx => hwu x (List.mem_cons_of_mem u hx)
    by_cases hst : cutoff > u.last_updated
    · -- stale: a delete is queued for u
      rcases identityFilter_sound u hwu0 with ⟨filt, hfilt, hsound⟩
      have hdel : deleteOpFor cutoff u = some (Op.deleteOne filt) := by
        unfold deleteOpFor
        rw [if_pos hst, hfilt]
        rfl
      have happ : applyOps S ((u :: us').filterMap (deleteOpFor cutoff))
          = applyOps (deleteFirst S filt) (us'.filterMap (deleteOpFor cutoff)) := by
        rw [List.filterMap_cons, hdel]
        rfl
      have hSnd : S.Nodup := pairwise_nonagree_ne hps hws
      have huS : u ∈ S := hpres u (List.mem_cons_self u us') hst
      have huniqf : ∀ s ∈ S, matchesFilter filt s = true → s = u := by
        intro s hs hms
        exact huniq u (List.mem_cons_self u us') s hs (agreeOn_symm ((hsound s).mp hms))
      have hsub : List.Sublist (deleteFirst S filt) S := deleteFirst_sublist S filt
      have hnotmem : u ∉ deleteFirst S filt :=
        deleteFirst_not_mem S filt u hSnd huniqf ((hsound u).mpr (agreeOn_refl hwu0))
      have hne' : ∀ x ∈ us', x ≠ u := by
        intro x hx he
        have hagux : agreeOn L u x := by rw [he]; exact agreeOn_refl hwu0
        exact hpuh x hx hagux
      have hpres1 : ∀ x ∈ us', cutoff > x.last_updated → x ∈ deleteFirst S filt := by
        intro x hx hstx
        exact mem_deleteFirst_of_ne S filt u x
          (hpres x (List.mem_cons_of_mem u hx) hstx) (hne' x hx) huniqf
      have huniq1 : ∀ x ∈ us', ∀ s ∈ deleteFirst S filt, agreeOn L s x → s = x := by
        intro x hx s hs hag
        exact huniq x (List.mem_cons_of_mem u hx) s (hsub.subset hs) hag
      obtain ⟨e1, e2, e3, e4, e5⟩ := ih (deleteFirst S filt) hwu'
        (fun s hs => hws s (hsub.subset hs)) hpu' (List.Pairwise.sublist hsub hps)
        hpres1 huniq1
      refine ⟨?_, ?_, ?_, by rw [happ]; exact e4, by rw [happ]; exact e5⟩
      · intro t ht
        rw [happ] at ht
        exact hsub.subset (e1 t ht)
      · intro t ht x hx hstx
        rw [happ] at ht
        rcases List.mem_cons.mp hx with rfl | hx'
        · intro hag
          have hts : t = x := huniq x (List.mem_cons_self x us') t
            (hsub.subset (e1 t ht)) hag
          exact hnotmem (hts ▸ e1 t ht)
        · exact e2 t ht x hx' hstx
      · intro t ht hta
        rw [happ]
        have htne : t ≠ u := by
          intro he
          have hagtu : agreeOn L t u := by rw [he]; exact agreeOn_refl hwu0
          exact hta u (List.mem_cons_self u us') hst hagtu
        refine e3 t (mem_deleteFirst_of_ne S filt u t ht htne huniqf) ?_
        intro x hx hstx
        exact hta x (List.mem_cons_of_mem u hx) hstx
    · -- not stale: no delete queued
      have hdel : deleteOpFor cutoff u = none := by
        unfold deleteOpFor
        rw [if_neg hst]
      have happ : applyOps S ((u :: us').filterMap (deleteOpFor cutoff))
          = applyOps S (us'.filterMap (deleteOpFor cutoff)) := by
        rw [List.filterMap_cons, hdel]
      obtain ⟨e1, e2, e3, e4, e5⟩ := ih S hwu' hws hpu' hps
        (fun x hx hstx => hpres x (List.mem_cons_of_mem u hx) hstx)
        (fun x hx s hs hag => huniq x (List.mem_cons_of_mem u hx) s hs hag)
      refine ⟨?_, ?_, ?_, by rw [happ]; exact e4, by rw [happ]; exact e5⟩
      · intro t ht
        rw [happ] at ht
        exact e1 t ht
      · intro t ht x hx hstx
        rw [happ] at ht
        rcases List.mem_cons.mp hx with rfl | hx'
        · exact absurd hstx hst
        · exact e2 t ht x hx' hstx
      · intro t ht hta
        rw [happ]
        exact e3 t ht fun x hx hstx => hta x (List.mem_cons_of_mem u hx) hstx

/-- Explicit evaluation of a call against a non-raising store when both
loops complete. -/
theorem engine_noFail_eq (fresh former : List Record) (now ret : Int)
    (hf : FreshOk (refreshedOf fresh former) fresh)
    (hd : DeleteOk (now - ret) (unseenOf fresh former)) :
    diff_and_update_state fresh former now ret noFailure
      = ⟨(if (fresh.filterMap (opFor (refreshedOf fresh former))).isEmpty then []
            else [fresh.filterMap (opFor (refreshedOf fresh former))])
          ++ (if ((unseenOf fresh former).filterMap (deleteOpFor (now - ret))).isEmpty
              then []
              else [(unseenOf fresh former).filterMap (deleteOpFor (now - ret))]),
         Except.ok
          ⟨fresh.filter (fun r => !matchedByRefreshed (refreshedOf fresh former) r),
           fresh.filterMap (changedEntryFor (refreshedOf fresh former)),
           (unseenOf fresh former).filter
             (fun r => decide (now - ret > r.last_updated))⟩⟩ := by
  unfold diff_and_update_state
  dsimp only
  rw [freshPass_ok _ _ hf]
  dsimp only
  rw [if_neg (by simp [noFailure])]
  rw [deletePass_ok _ _ hd]
  dsimp only
  rw [if_neg (by simp [noFailure])]

/-- Submitting the two optional batches equals applying both operation
lists in order (an omitted empty batch is a no-op). -/
theorem applyBatches_pair (S : List Record) (b1 b2 : List Op) :
    applyBatches S ((if b1.isEmpty then [] else [b1])
        ++ (if b2.isEmpty then [] else [b2]))
      = applyOps (applyOps S b1) b2 := by
  have hemp : ∀ l : List Op, l.isEmpty = true → l = [] := by
    intro l hl
    cases l with
    | nil => rfl
    | cons a t => exact Bool.noConfusion hl
  by_cases e1 : b1.isEmpty = true <;> by_cases e2 : b2.isEmpty = true
  · rw [if_pos e1, if_pos e2, hemp b1 e1, hemp b2 e2]
    rfl
  · rw [if_pos e1, if_neg e2, hemp b1 e1]
    rfl
  · rw [if_neg e1, if_pos e2, hemp b2 e2]
    rfl
  · rw [if_neg e1, if_neg e2]
    rfl

/-- A call against a store that already contains exactly the fresh
records (plus untouched non-stale strangers) returns the empty diff. -/
theorem run_empty_of_invariants (L : List String) (fresh store2 : List Record)
    (now ret : Int)
    (hwf : ∀ r ∈ fresh, wfRecord L r)
    (hw2 : ∀ s ∈ store2, wfRecord L s)
    (hP1 : ∀ r ∈ fresh, r ∈ store2)
    (hP2 : ∀ t ∈ store2, ∀ r ∈ fresh, agreeOn L t r → t = r)
    (hP3 : ∀ t ∈ store2, (∀ r ∈ fresh, ¬agreeOn L t r) →
      ¬(now - ret > t.last_updated)) :
    (diff_and_update_state fresh store2 now ret noFailure).outcome
      = Except.ok ⟨[], [], []⟩ := by
  have hf2 : FreshOk (refreshedOf fresh store2) fresh := by
    intro r hr _
    exact identityFilter_isSome_of_present r fun k hk =>
      (hwf r hr).2.1 k ((hwf r hr).1 ▸ hk)
  have hd2 : DeleteOk (now - ret) (unseenOf fresh store2) := by
    intro u hu _
    have hu2 : u ∈ store2 := ((mem_unseenOf fresh store2 u).mp hu).1
    exact identityFilter_isSome_of_present u fun k hk =>
      (hw2 u hu2).2.1 k ((hw2 u hu2).1 ▸ hk)
  have hmatched : ∀ r ∈ fresh,
      matchedByRefreshed (refreshedOf fresh store2) r = true := by
    intro r hr
    rw [matchedByRefreshed_refreshedOf fresh store2 r hr]
    unfold hasFormerMatch
    rw [List.any_eq_true]
    exact ⟨r, hP1 r hr,
      (identical_iff_agreeOn (hwf r hr) (hwf r hr)).mpr (agreeOn_refl (hwf r hr))⟩
  have hadded : fresh.filter
      (fun r => !matchedByRefreshed (refreshedOf fresh store2) r) = [] := by
    rw [List.filter_eq_nil_iff]
    intro r hr
    rw [hmatched r hr]
    simp
  have hchanged : fresh.filterMap (changedEntryFor (refreshedOf fresh store2)) = [] := by
    rw [List.filterMap_eq_nil_iff]
    intro r hr
    unfold changedEntryFor
    rw [if_pos (hmatched r hr)]
    cases hfind : (refreshedOf fresh store2).find? (fun f => identical f r) with
    | none => rfl
    | some f =>
      have hfid : identical f r = true := by simpa using List.find?_some hfind
      have hfmem : f ∈ store2 :=
        ((mem_refreshedOf fresh store2 f).mp (List.mem_of_find?_eq_some hfind)).1
      have hfr : f = r :=
        hP2 f hfmem r hr ((identical_iff_agreeOn (hw2 f hfmem) (hwf r hr)).mp hfid)
      subst hfr
      dsimp only
      rcases fieldDiff_self f.data (hwf f hr).2.2 with ⟨hA, hC, hR⟩
      rw [hA, hC, hR]
      rfl
  have hremoved : (unseenOf fresh store2).filter
      (fun r => decide (now - ret > r.last_updated)) = [] := by
    rw [List.filter_eq_nil_iff]
    intro s hs
    rcases (mem_unseenOf fresh store2 s).mp hs with ⟨hs2, hnm⟩
    unfold matchedByFresh at hnm
    rw [List.any_eq_false] at hnm
    have hnoag : ∀ r ∈ fresh, ¬agreeOn L s r := by
      intro r hr hag
      exact hnm r hr
        ((identical_iff_agreeOn (hwf r hr) (hw2 s hs2)).mpr (agreeOn_symm hag))
    have hnst := hP3 s hs2 hnoag
    intro hdec
    exact hnst (of_decide_eq_true hdec)
  rw [engine_noFail_eq fresh store2 now ret hf2 hd2]
  dsimp only
  rw [hadded, hchanged, hremoved]

/-- C6 (amended): under the conditions that make record identity a key —
one uniform identifying-field list, every record carrying its identifying
fields with duplicate-free data keys, no two identity-equal records in
the fresh list nor in the store — the first call succeeds, and running
the same call again with the same `now` against the store holding the
first call's writes returns empty added, changed and removed. -/
theorem reconcile_idempotent (L : List String) (fresh store1 : List Record)
    (now ret : Int)
    (hwf : ∀ r ∈ fresh, wfRecord L r) (hws : ∀ s ∈ store1, wfRecord L s)
    (hpf : fresh.Pairwise fun a b => ¬agreeOn L a b)
    (hps : store1.Pairwise fun a b => ¬agreeOn L a b) :
    ∃ res1 : DiffResults,
      (diff_and_update_state fresh store1 now ret noFailure).outcome = Except.ok res1
      ∧ (diff_and_update_state fresh
          (applyBatches store1
            (diff_and_update_state fresh store1 now ret noFailure).calls)
          now ret noFailure).outcome = Except.ok ⟨[], [], []⟩ := by
  have hf1 : FreshOk (refreshedOf fresh store1) fresh := by
    intro r hr _
    exact identityFilter_isSome_of_present r fun k hk =>
      (hwf r hr).2.1 k ((hwf r hr).1 ▸ hk)
  have hd1 : DeleteOk (now - ret) (unseenOf fresh store1) := by
    intro u hu _
    have hu1 : u ∈ store1 := ((mem_unseenOf fresh store1 u).mp hu).1
    exact identityFilter_isSome_of_present u fun k hk =>
      (hws u hu1).2.1 k ((hws u hu1).1 ▸ hk)
  have hrun1 := engine_noFail_eq fresh store1 now ret hf1 hd1
  have hstore2 : applyBatches store1
      (diff_and_update_state fresh store1 now ret noFailure).calls
      = applyOps (applyOps store1 (fresh.filterMap (opFor (refreshedOf fresh store1))))
          ((unseenOf fresh store1).filterMap (deleteOpFor (now - ret))) := by
    rw [hrun1]
    exact applyBatches_pair store1 _ _
  have hiffA : ∀ r ∈ fresh, (matchedByRefreshed (refreshedOf fresh store1) r = true
      ↔ ∃ s ∈ store1, agreeOn L s r) := by
    intro r hr
    rw [matchedByRefreshed_refreshedOf fresh store1 r hr]
    unfold hasFormerMatch
    rw [List.any_eq_true]
    constructor
    · rintro ⟨s, hs, hid⟩
      exact ⟨s, hs, (identical_iff_agreeOn (hws s hs) (hwf r hr)).mp hid⟩
    · rintro ⟨s, hs, hag⟩
      exact ⟨s, hs, (identical_iff_agreeOn (hws s hs) (hwf r hr)).mpr hag⟩
  obtain ⟨a1, a2, a3, a4, a5, a6⟩ := stageA L (refreshedOf fresh store1) fresh store1
    hwf hws hpf hps hiffA
  have hunm : ∀ u ∈ unseenOf fresh store1, ∀ r ∈ fresh, ¬agreeOn L r u := by
    intro u hu r hr hag
    rcases (mem_unseenOf fresh store1 u).mp hu with ⟨hu1, hnm⟩
    unfold matchedByFresh at hnm
    rw [List.any_eq_false] at hnm
    exact hnm r hr ((identical_iff_agreeOn (hwf r hr) (hws u hu1)).mpr hag)
  have husw : ∀ u ∈ unseenOf fresh store1, wfRecord L u := fun u hu =>
    hws u ((mem_unseenOf fresh store1 u).mp hu).1
  have hpu : (unseenOf fresh store1).Pairwise (fun a b => ¬agreeOn L a b) := by
    unfold unseenOf
    exact List.Pairwise.sublist (List.filter_sublist store1) hps
  have hpresB : ∀ u ∈ unseenOf fresh store1, now - ret > u.last_updated →
      u ∈ applyOps store1 (fresh.filterMap (opFor (refreshedOf fresh store1))) := by
    intro u hu _
    refine (a4 u ?_).mpr ((mem_unseenOf fresh store1 u).mp hu).1
    intro r hr hag
    exact hunm u hu r hr (agreeOn_symm hag)
  have huniqB : ∀ u ∈ unseenOf fresh store1,
      ∀ s ∈ applyOps store1 (fresh.filterMap (opFor (refreshedOf fresh store1))),
      agreeOn L s u → s = u := by
    intro u hu s hs hag
    rcases a2 s hs with h | h
    · by_cases he : s = u
      · exact he
      · exact absurd hag (pairwise_nonagree_forall hps s h u
          ((mem_unseenOf fresh store1 u).mp hu).1 he)
    · exact absurd hag (hunm u hu s h)
  obtain ⟨e1, e2, e3, e4, e5⟩ := stageB L (now - ret) (unseenOf fresh store1)
    (applyOps store1 (fresh.filterMap (opFor (refreshedOf fresh store1))))
    husw a6 hpu a5 hpresB huniqB
  refine ⟨_, by rw [hrun1], ?_⟩
  rw [hstore2]
  refine run_empty_of_invariants L fresh _ now ret hwf e5 ?_ ?_ ?_
  · intro r hr
    refine e3 r (a1 r hr) ?_
    intro u hu _ hag
    exact hunm u hu r hr hag
  · intro t ht r hr hag
    exact a3 t (e1 t ht) r hr hag
  · intro t ht hta hst
    have htW := e1 t ht
    have htS1 : t ∈ store1 := (a4 t hta).mp htW
    have htu : t ∈ unseenOf fresh store1 := by
      rw [mem_unseenOf]
      refine ⟨htS1, ?_⟩
      unfold matchedByFresh
      rw [List.any_eq_false]
      intro x hx hid
      exact hta x hx (agreeOn_symm
        ((identical_iff_agreeOn (hwf x hx) (hws t htS1)).mp hid))
    exact e2 t ht t htu hst (agreeOn_refl (e5 t ht))

/-- C6 counterexample: with two identity-equal fresh records, the first
call inserts both; the second call, against the store holding the first
call's writes, with the same fresh list and the same `now`, reports a
non-empty `changed` — reconciliation is not idempotent as stated. -/
theorem reconcile_idempotent_counterexample :
    (diff_and_update_state [cexA, cexB] [] 1000100 86400 noFailure).outcome
      = Except.ok ⟨[cexA, cexB], [], []⟩
    ∧ applyBatches []
        (diff_and_update_state [cexA, cexB] [] 1000100 86400 noFailure).calls
      = [cexA, cexB]
    ∧ (diff_and_update_state [cexA, cexB] [cexA, cexB] 1000100 86400 noFailure).outcome
      = Except.ok ⟨[], [⟨cexB, [], [("x", Value.vInt 1, Value.vInt 2)], []⟩], []⟩ := by
  decide

/-- Witness for the amended C6 at a one-record refresh. -/
theorem reconcile_idempotent_witness :
    ∃ res1 : DiffResults,
      (diff_and_update_state [exIdB] [exIdA] 1003600 86400 noFailure).outcome
        = Except.ok res1
      ∧ (diff_and_update_state [exIdB]
          (applyBatches [exIdA]
            (diff_and_update_state [exIdB] [exIdA] 1003600 86400 noFailure).calls)
          1003600 86400 noFailure).outcome = Except.ok ⟨[], [], []⟩ :=
  reconcile_idempotent ["id"] [exIdB] [exIdA] 1003600 86400
    (by decide) (by decide) (List.pairwise_singleton _ _) (List.pairwise_singleton _ _)

end Gatherers
